import Mathlib

/-!
Murmur voice datapath (`src/murmur/Server.cpp`)
=============================================

A shallow embedding of the UDP receive loop, the voice router `Server::processMsg`,
the dual-path transmitter `Server::sendMessage`, the TLS tunnel framing and the
connection bookkeeping of `Server.cpp`, followed by theorems about them.

Conventions of the embedding.

* A byte is a `Nat` below 256; a `(const char *data, int len)` pair is a `List Nat`
  of length `len`.
* A `ServerUser *` is a `Ptr`: an index into the store `Server.objs`.  The store only
  grows (`new ServerUser`); `deleteLater` does not shrink it, so that a pointer kept
  after `connectionClosed` can still be followed and the use is visible.
* A `Channel *` is the channel's id, the key of `qhChannels`.
* `QHash`/`QMap` are association lists with `value`, `insert`, `remove`, `contains`;
  `QSet` is a list with duplicate-free insertion; iteration order is the list order.
* A `Timer` is the time stamp (in microseconds) of its last `restart`; `elapsed()` at
  time `now` is `now - stamp`.
* Code of the repository that is not in `Server.cpp` (`PacketDataStream`, `Channel`,
  `ChanACL`, `Group`, `CryptState`, the `MessageHandler` constants) is taken as the
  parameter record `Deps`.
-/

namespace Murmur

/-! ## Containers -/

/-- Pointer to a `ServerUser`: index into `Server.objs`. -/
abbrev Ptr := Nat

/-- Lookup `QHash::value(k)`: `none` stands for the default value (a null pointer). -/
def qhValue {β : Type} : List (Nat × β) → Nat → Option β
  | [], _ => none
  | (k', v) :: m, k => if k' = k then some v else qhValue m k

/-- Removal `QHash::remove(k)`. -/
def qhRemove {β : Type} (m : List (Nat × β)) (k : Nat) : List (Nat × β) :=
  m.filter (fun e => decide (e.1 ≠ k))

/-- Insertion `QHash::insert(k, v)`: an existing entry for `k` is replaced. -/
def qhInsert {β : Type} (m : List (Nat × β)) (k : Nat) (v : β) : List (Nat × β) :=
  (k, v) :: qhRemove m k

/-- Membership `QHash::contains(k)`. -/
def qhContains {β : Type} (m : List (Nat × β)) (k : Nat) : Bool :=
  (qhValue m k).isSome

/-- Insertion `QSet::insert`. -/
def qsInsert (l : List Ptr) (p : Ptr) : List Ptr :=
  if p ∈ l then l else l ++ [p]

/-- Union `QSet::unite`. -/
def qsUnite (l r : List Nat) : List Nat :=
  r.foldl qsInsert l

/-! ## Data model -/

/-- The connection state `User::State`. -/
inductive State
  | Connected
  | Authenticated
  deriving DecidableEq, Repr

/-- The permissions of `ChanACL::Perm` that the datapath asks for. -/
inductive Perm
  | Speak
  | Whisper
  deriving DecidableEq, Repr

/-- One `WhisperTarget::Channel`. -/
structure WhisperChannel where
  iId : Nat
  bChildren : Bool
  bLinks : Bool
  qsGroup : String
  deriving DecidableEq, Repr

/-- A `WhisperTarget`: channel specifications and explicit session ids. -/
structure WhisperTarget where
  qlChannels : List WhisperChannel
  qlSessions : List Nat
  deriving DecidableEq, Repr

/-- Modelled from the spec: the constant `N_BANDWIDTH_SLOTS` is declared outside
`Server.cpp`; section 4.2 gives a ring of N (= 128) slots. -/
def N_BANDWIDTH_SLOTS : Nat := 128

/-- The sliding window `BandwidthRecord`. -/
structure BandwidthRecord where
  iRecNum : Nat
  iSum : Int
  a_iBW : List Nat
  a_qtWhen : List Nat
  deriving DecidableEq, Repr

/-- The fields of `CryptState` that `Server.cpp` reads and writes. -/
structure CryptState where
  valid : Bool
  tLastGood : Nat
  tLastRequest : Nat
  deriving DecidableEq, Repr

/-- A `ServerUser` (with the fields of `User` and `Connection` the datapath uses). -/
structure ServerUser where
  uiSession : Nat
  sState : State
  bMute : Bool
  bSuppressed : Bool
  bDeaf : Bool
  bSelfDeaf : Bool
  ssContext : String
  bUdp : Bool
  /-- The address `saiUdpAddress.sin_addr.s_addr`. -/
  sinAddr : Nat
  /-- The port `saiUdpAddress.sin_port`; `0` means not known. -/
  sinPort : Nat
  csCrypt : CryptState
  bwr : BandwidthRecord
  cChannel : Option Nat
  qmTargets : List (Nat × WhisperTarget)
  qmTargetCache : List (Nat × (List Ptr × List Ptr))
  deriving DecidableEq, Repr

/-- A `Channel`: present users, linked channels, child channels. -/
structure Channel where
  qlUsers : List Ptr
  qhLinks : List Nat
  qlChannels : List Nat
  deriving DecidableEq, Repr

/-- The state of a `Server` that the datapath and the connection handlers use. -/
structure Server where
  objs : List ServerUser
  qhUsers : List (Nat × Ptr)
  qhHostUsers : List (Nat × List Ptr)
  qhPeerUsers : List (Nat × Ptr)
  qqIds : List Nat
  qhChannels : List (Nat × Channel)
  iMaxBandwidth : Int
  deriving DecidableEq, Repr

/-- What leaves a call: a datagram, a queued TLS frame, a resync request. -/
inductive Event
  /-- The call `sendto` of `sendMessage`: `plain` encrypted with the CryptState of `dst`. -/
  | sendto (dst : Ptr) (port : Nat) (plain : List Nat)
  /-- The signal `tcpTransmit(cache, session)` emitted by `sendMessage` called for `dst`. -/
  | tcpTransmit (dst : Ptr) (session : Nat) (bytes : List Nat)
  /-- The signal `reqSync(session)`. -/
  | reqSync (session : Nat)
  deriving DecidableEq, Repr

/-- The user a packet event is addressed to. -/
def Event.dst? : Event → Option Ptr
  | .sendto d _ _ => some d
  | .tcpTransmit d _ _ => some d
  | .reqSync _ => none

/-- The plaintext bytes a packet event carries. -/
def Event.bytes : Event → List Nat
  | .sendto _ _ b => b
  | .tcpTransmit _ _ b => b
  | .reqSync _ => []

/-- The code outside `Server.cpp` that the embedded functions call, as parameters. -/
structure Deps where
  /-- The constant `MessageHandler::UDPVoice`. -/
  UDPVoice : Nat
  /-- The constant `MessageHandler::UDPPing`. -/
  UDPPing : Nat
  /-- The constant `MessageHandler::UDPTunnel`. -/
  UDPTunnel : Nat
  /-- The bytes `PacketDataStream::operator<<` writes for an unsigned value. -/
  encode : Nat → List Nat
  /-- The contents of a `PacketDataStream` of the given capacity after writes
  (session bytes, then payload) that exceed it. -/
  overflow : Nat → List Nat → List Nat → List Nat
  /-- The value of `pdi.left()` at line 519, after the loop of lines 509-517 has run
  over the payload `data + 1 .. data + len`. -/
  posLen : List Nat → Nat
  /-- The set `Channel::allLinks()` of a channel, in the given channel table. -/
  allLinks : List (Nat × Channel) → Nat → List Nat
  /-- The set `Channel::allChildren()` of a channel, in the given channel table. -/
  allChildren : List (Nat × Channel) → Nat → List Nat
  /-- The answer of `ChanACL::hasPermission(user, channel, perm, acCache)`. -/
  hasPermission : Ptr → Nat → Perm → Bool
  /-- The answer of `Group::isMember(channel, channel, group, user)`. -/
  isMember : Nat → String → Ptr → Bool
  /-- The result of `CryptState::decrypt` with the key of the given user: the plaintext
  (four bytes shorter than the datagram) or failure. -/
  decrypt : Ptr → List Nat → Option (List Nat)

/-- Dereference of a `ServerUser *`. -/
def Server.user (s : Server) (p : Ptr) : Option ServerUser :=
  s.objs[p]?

/-- Assignment through a `ServerUser *`. -/
def Server.setUser (s : Server) (p : Ptr) (u : ServerUser) : Server :=
  { s with objs := s.objs.set p u }

/-! ## BandwidthRecord (lines 283-305) -/

/-- The constructor `BandwidthRecord::BandwidthRecord()`; the timers start at `now`. -/
def BandwidthRecord.new (now : Nat) : BandwidthRecord :=
  { iRecNum := 0, iSum := 0,
    a_iBW := List.replicate N_BANDWIDTH_SLOTS 0,
    a_qtWhen := List.replicate N_BANDWIDTH_SLOTS now }

/-- The method `BandwidthRecord::addFrame(size)` at time `now`. The slot receives
`static_cast<unsigned char>(size)`. -/
def BandwidthRecord.addFrame (now : Nat) (b : BandwidthRecord) (size : Nat) : BandwidthRecord :=
  let old := b.a_iBW.getD b.iRecNum 0
  let new := size % 256
  let rec1 := b.iRecNum + 1
  { iRecNum := if rec1 = N_BANDWIDTH_SLOTS then 0 else rec1,
    iSum := b.iSum - (old : Int) + (new : Int),
    a_iBW := b.a_iBW.set b.iRecNum new,
    a_qtWhen := b.a_qtWhen.set b.iRecNum now }

/-- The conversion `static_cast<int>` of an unsigned 64-bit value. -/
def toInt32 (x : Nat) : Int :=
  let r : Nat := x % 2 ^ 32
  if r < 2 ^ 31 then (r : Int) else (r : Int) - 2 ^ 32

/-- The method `BandwidthRecord::bytesPerSec()` at time `now`: the product is taken in
64 bits and converted to unsigned for the division. A zero `elapsed` is a division by
zero in the source; here the quotient is then `0`. -/
def BandwidthRecord.bytesPerSec (now : Nat) (b : BandwidthRecord) : Int :=
  let elapsed := now - b.a_qtWhen.getD b.iRecNum 0
  toInt32 ((((b.iSum * 1000000) % 2 ^ 64).toNat) / elapsed)

/-! ## Transmitter (lines 449-483) -/

/-- The method `Server::sendMessage(u, data, len, cache, force)`; `data` holds the `len`
bytes. Returns the event and the cache afterwards. -/
def sendMessage (p : Ptr) (u : ServerUser) (data : List Nat) (cache : List Nat) (force : Bool) :
    Event × List Nat :=
  if (u.bUdp || force) && (u.sinPort != 0) && u.csCrypt.valid then
    (Event.sendto p u.sinPort data, cache)
  else
    let cache1 := if cache.isEmpty then data else cache
    (Event.tcpTransmit p u.uiSession cache1, cache1)

/-- The two caches `qba` and `qba_npos` of `processMsg`. -/
structure Caches where
  qba : List Nat
  qba_npos : List Nat
  deriving DecidableEq, Repr

/-- The macro `SENDTO` for destination `pDst`, sender `u`, the `len` bytes of `buffer`
and `poslen`. Returns the events (none or one) and the caches afterwards. -/
def SENDTO (s : Server) (u : Ptr) (usr : ServerUser) (buffer : List Nat) (poslen : Nat)
    (pDst : Ptr) (c : Caches) : List Event × Caches :=
  match s.user pDst with
  | none => ([], c)
  | some d =>
    if !d.bDeaf && !d.bSelfDeaf && (pDst != u) then
      if poslen != 0 && d.ssContext == usr.ssContext then
        let r := sendMessage pDst d buffer c.qba false
        ([r.1], { c with qba := r.2 })
      else
        let r := sendMessage pDst d (buffer.take (buffer.length - poslen)) c.qba_npos false
        ([r.1], { c with qba_npos := r.2 })
    else ([], c)

/-- A loop `foreach(pDst, users) SENDTO;`. -/
def sendToAll (s : Server) (u : Ptr) (usr : ServerUser) (buffer : List Nat) (poslen : Nat) :
    List Ptr → Caches → List Event × Caches
  | [], c => ([], c)
  | p :: ps, c =>
    let r := SENDTO s u usr buffer poslen p c
    let r2 := sendToAll s u usr buffer poslen ps r.2
    (r.1 ++ r2.1, r2.2)

/-! ## Voice router (lines 485-634) -/

/-- The contents `buffer[1 .. pds.size()]` after `pds << u->uiSession;`
`pds.append(data + 1, len - 1)` on the stream `pds(buffer + 1, 511)`: the two writes one
after the other when they fit the capacity. -/
def pdsWrite (dp : Deps) (cap : Nat) (session : Nat) (payload : List Nat) : List Nat :=
  let out := dp.encode session ++ payload
  if out.length ≤ cap then out else dp.overflow cap (dp.encode session) payload

/-- The loop of lines 543-550 over the linked channels `chans`. -/
def sendToLinked (dp : Deps) (s : Server) (u : Ptr) (usr : ServerUser) (buffer : List Nat)
    (poslen : Nat) : List Nat → Caches → List Event × Caches
  | [], c => ([], c)
  | l :: ls, c =>
    let r :=
      if dp.hasPermission u l Perm.Speak then
        match qhValue s.qhChannels l with
        | some lc => sendToAll s u usr buffer poslen lc.qlUsers c
        | none => ([], c)
      else ([], c)
    let r2 := sendToLinked dp s u usr buffer poslen ls r.2
    (r.1 ++ r2.1, r2.2)

/-- The branch `target == 0` (lines 530-551): the sender's channel, then the linked
channels on which the sender may speak. -/
def normalSpeech (dp : Deps) (s : Server) (u : Ptr) (usr : ServerUser) (buffer : List Nat)
    (poslen : Nat) : List Event :=
  match usr.cChannel with
  | none => []
  | some cid =>
    match qhValue s.qhChannels cid with
    | none => []
    | some c =>
      let r := sendToAll s u usr buffer poslen c.qlUsers { qba := [], qba_npos := [] }
      if !c.qhLinks.isEmpty then
        let chans := (dp.allLinks s.qhChannels cid).filter (fun l => decide (l ≠ cid))
        r.1 ++ (sendToLinked dp s u usr buffer poslen chans r.2).1
      else r.1

/-- The loop `foreach(p, tc->qlUsers)` of lines 574-576 and 588-592: the users of one
channel are inserted into `channel`, filtered by the group when one is given. -/
def addChannelUsers (dp : Deps) (tc : Nat) (group : Bool) (qsGroup : String)
    (users : List Ptr) (channel : List Ptr) : List Ptr :=
  users.foldl (fun ch p => if !group || dp.isMember tc qsGroup p then qsInsert ch p else ch)
    channel

/-- The set `channels` of lines 579-585 for the whisper channel `wc`. -/
def whisperExpansion (dp : Deps) (s : Server) (wc : Nat) (link dochildren : Bool) : List Nat :=
  let channels := if link then dp.allLinks s.qhChannels wc else [wc]
  if dochildren then qsUnite channels (dp.allChildren s.qhChannels wc) else channels

/-- The body of the loop over `wt.qlChannels` (lines 566-596) for one entry `wtc`. -/
def whisperChannelStep (dp : Deps) (s : Server) (u : Ptr) (channel : List Ptr)
    (wtc : WhisperChannel) : List Ptr :=
  match qhValue s.qhChannels wtc.iId with
  | none => channel
  | some wc =>
    let link := wtc.bLinks && !wc.qhLinks.isEmpty
    let dochildren := wtc.bChildren && !wc.qlChannels.isEmpty
    let group := wtc.qsGroup != ""
    if !link && !dochildren && !group then
      if dp.hasPermission u wtc.iId Perm.Whisper then
        wc.qlUsers.foldl qsInsert channel
      else channel
    else
      (whisperExpansion dp s wtc.iId link dochildren).foldl
        (fun ch tc =>
          if dp.hasPermission u tc Perm.Whisper then
            match qhValue s.qhChannels tc with
            | some tcc => addChannelUsers dp tc group wtc.qsGroup tcc.qlUsers ch
            | none => ch
          else ch)
        channel

/-- The set `channel` computed by lines 561-598. -/
def whisperChannels (dp : Deps) (s : Server) (u : Ptr) (wt : WhisperTarget) : List Ptr :=
  if !wt.qlChannels.isEmpty then wt.qlChannels.foldl (whisperChannelStep dp s u) [] else []

/-- The set `direct` computed by lines 600-604. -/
def whisperDirect (s : Server) (wt : WhisperTarget) (channel : List Ptr) : List Ptr :=
  wt.qlSessions.foldl
    (fun direct id =>
      match qhValue s.qhUsers id with
      | some pDst => if !channel.contains pDst then qsInsert direct pDst else direct
      | none => direct)
    []

/-- The two send loops of lines 617-632 over the sets `channel` and `direct`. -/
def whisperSend (s : Server) (u : Ptr) (usr : ServerUser) (out : List Nat) (poslen : Nat)
    (channel direct : List Ptr) : List Event :=
  let r1 : List Event × Caches :=
    if !channel.isEmpty then
      let r := sendToAll s u usr (1 :: out) poslen channel { qba := [], qba_npos := [] }
      (r.1, if !direct.isEmpty then { qba := [], qba_npos := [] } else r.2)
    else ([], { qba := [], qba_npos := [] })
  let r2 : List Event :=
    if !direct.isEmpty then (sendToAll s u usr (2 :: out) poslen direct r1.2).1 else []
  r1.1 ++ r2

/-- The branch `u->qmTargets.contains(target)` (lines 552-633). The two tests of
`qhUsers.contains(uiSession)` around the lock hand-over see the same `qhUsers`. -/
def whisper (dp : Deps) (s : Server) (u : Ptr) (usr : ServerUser) (target : Nat)
    (out : List Nat) (poslen : Nat) : Server × List Event :=
  match qhValue usr.qmTargetCache target with
  | some cache => (s, whisperSend s u usr out poslen cache.1 cache.2)
  | none =>
    let wt := (qhValue usr.qmTargets target).getD { qlChannels := [], qlSessions := [] }
    let channel := whisperChannels dp s u wt
    let direct := whisperDirect s wt channel
    if qhContains s.qhUsers usr.uiSession then
      let s1 := s.setUser u
        { usr with qmTargetCache := qhInsert usr.qmTargetCache target (channel, direct) }
      (s1, whisperSend s1 u usr out poslen channel direct)
    else (s, [])

/-- The method `Server::processMsg(u, data, len)` at time `now`; `data` holds the `len`
bytes. Returns the server afterwards and the events in the order they are produced. -/
def processMsg (dp : Deps) (now : Nat) (s : Server) (u : Ptr) (data : List Nat) :
    Server × List Event :=
  match s.user u with
  | none => (s, [])
  | some usr0 =>
    if usr0.sState != State.Authenticated || usr0.bMute || usr0.bSuppressed then (s, [])
    else
      let target := data.headD 0 % 32
      let packetsize := 20 + 8 + 4 + data.length
      let usr := { usr0 with bwr := usr0.bwr.addFrame now packetsize }
      let s1 := s.setUser u usr
      if usr.bwr.bytesPerSec now > s.iMaxBandwidth then (s1, [])
      else
        let payload := data.tail
        let poslen := dp.posLen payload
        let out := pdsWrite dp 511 usr.uiSession payload
        if target = 31 then
          (s1, [(sendMessage u usr (target :: out) [] false).1])
        else if target = 0 then
          (s1, normalSpeech dp s1 u usr (0 :: out) poslen)
        else if qhContains usr.qmTargets target then
          whisper dp s1 u usr target out poslen
        else (s1, [])

/-! ## UDP receive loop (lines 327-447) -/

/-- The method `Server::checkDecrypt(u, encrypt, plain, len)` at time `now`. Returns the
server afterwards, the plaintext when the call returns `true`, and the events. What
`CryptState::decrypt` changes inside the CryptState is outside `Server.cpp`. -/
def checkDecrypt (dp : Deps) (now : Nat) (s : Server) (p : Ptr) (encrypt : List Nat) :
    Server × Option (List Nat) × List Event :=
  match s.user p with
  | none => (s, none, [])
  | some u =>
    match (if u.csCrypt.valid then dp.decrypt p encrypt else none) with
    | some plain => (s, some plain, [])
    | none =>
      if now - u.csCrypt.tLastGood > 5000000 then
        if now - u.csCrypt.tLastRequest > 5000000 then
          (s.setUser p { u with csCrypt := { u.csCrypt with tLastRequest := now } }, none,
            [Event.reqSync u.uiSession])
        else (s, none, [])
      else (s, none, [])

/-- What `recvfrom` returns: an error, or a datagram with its source address. The length
`len` is the length of `bytes` (with `MSG_TRUNC` the real length of the datagram). -/
inductive Recv
  | error
  | datagram (sinAddr sinPort : Nat) (bytes : List Nat)
  deriving DecidableEq, Repr

/-- The key of `qhPeerUsers` (lines 388 and 790): `(s_addr << 16) ^ sin_port`. -/
def peerKey (sinAddr sinPort : Nat) : Nat :=
  (sinAddr <<< 16) ^^^ sinPort

/-- The statement `qhHostUsers[addr].remove(u)`. -/
def hostRemove (m : List (Nat × List Ptr)) (addr : Nat) (p : Ptr) : List (Nat × List Ptr) :=
  qhInsert m addr (((qhValue m addr).getD []).filter (fun q => decide (q ≠ p)))

/-- The statement `qhHostUsers[addr].insert(u)`. -/
def hostInsert (m : List (Nat × List Ptr)) (addr : Nat) (p : Ptr) : List (Nat × List Ptr) :=
  qhInsert m addr (qsInsert ((qhValue m addr).getD []) p)

/-- The loop of lines 397-416 over the users of the sender's host. Returns the server
afterwards, the user found together with the plaintext, and the events. The two tests of
`qhUsers.contains(uiSession)` around the lock hand-over see the same `qhUsers`. -/
def probeHost (dp : Deps) (now : Nat) (sinAddr sinPort : Nat) (encrypt : List Nat) :
    Server → List Ptr → Server × Option (Ptr × List Nat) × List Event
  | s, [] => (s, none, [])
  | s, usr :: rest =>
    match s.user usr with
    | none => probeHost dp now sinAddr sinPort encrypt s rest
    | some us =>
      if us.csCrypt.valid then
        let r := checkDecrypt dp now s usr encrypt
        match r.2.1 with
        | some plain =>
          if qhContains r.1.qhUsers us.uiSession then
            let s2 : Server :=
              { r.1 with
                qhHostUsers := hostRemove r.1.qhHostUsers sinAddr usr,
                qhPeerUsers := qhInsert r.1.qhPeerUsers (peerKey sinAddr sinPort) usr }
            (s2.setUser usr { us with sinPort := sinPort }, some (usr, plain), r.2.2)
          else (r.1, none, r.2.2)
        | none =>
          let r2 := probeHost dp now sinAddr sinPort encrypt r.1 rest
          (r2.1, r2.2.1, r.2.2 ++ r2.2.2)
      else probeHost dp now sinAddr sinPort encrypt s rest

/-- The dispatch of lines 421-432 on the plaintext `buffer` of user `u`. -/
def dispatch (dp : Deps) (now : Nat) (s : Server) (u : Ptr) (buffer : List Nat) :
    Server × List Event :=
  let msgType := (buffer.headD 0 / 32) % 8
  match s.user u with
  | none => (s, [])
  | some usr =>
    if msgType = dp.UDPPing then
      (s, [(sendMessage u usr buffer [] true).1])
    else if msgType = dp.UDPVoice then
      processMsg dp now (s.setUser u { usr with bUdp := true }) u buffer
    else (s, [])

/-- One turn of the loop of `Server::run` (lines 347-433) at time `now` for what
`recvfrom` returned. The flag is `false` when the loop is left by `break`. -/
def runStep (dp : Deps) (now : Nat) (s : Server) : Recv → Server × List Event × Bool
  | .error => (s, [], false)
  | .datagram sinAddr sinPort bytes =>
    let len := bytes.length
    if len = 0 then (s, [], false)
    else if len < 5 then (s, [], true)
    else if len > 512 then (s, [], true)
    else
      let found : Server × Option (Ptr × List Nat) × List Event :=
        match qhValue s.qhPeerUsers (peerKey sinAddr sinPort) with
        | some u =>
          let r := checkDecrypt dp now s u bytes
          (r.1, r.2.1.map (fun plain => (u, plain)), r.2.2)
        | none =>
          probeHost dp now sinAddr sinPort bytes s ((qhValue s.qhHostUsers sinAddr).getD [])
      match found.2.1 with
      | none => (found.1, found.2.2, true)
      | some (u, buffer) =>
        let r := dispatch dp now found.1 u buffer
        (r.1, found.2.2 ++ r.2, true)

/-! ## TLS tunnel framing (lines 862-879) -/

/-- The slot `Server::tcpTransmitData(a, id)`: the connection and the frame handed to
`c->sendMessage(qba)`, or nothing when the session is unknown. -/
def tcpTransmitData (dp : Deps) (s : Server) (a : List Nat) (id : Nat) :
    Option (Ptr × List Nat) :=
  match qhValue s.qhUsers id with
  | none => none
  | some c =>
    let len := a.length
    some (c, [dp.UDPTunnel % 256, (len / 65536) % 256, (len / 256) % 256, len % 256] ++ a)

/-! ## Connection bookkeeping (lines 646-806, 945-1004) -/

/-- Modelled from the spec: `Channel::removeUser` is not in `Server.cpp`; on removal the
user's "channel membership [is] dropped" (section 3, Lifecycle). -/
def removeUser (m : List (Nat × Channel)) (c : Nat) (p : Ptr) : List (Nat × Channel) :=
  match qhValue m c with
  | none => m
  | some ch => qhInsert m c { ch with qlUsers := ch.qlUsers.filter (fun q => decide (q ≠ p)) }

/-- The method `Server::clearACLCache(p)` (lines 983-1004): the permission cache is part
of the parameter `hasPermission`; the target cache of every user in `qhUsers` is cleared. -/
def clearACLCache (s : Server) (_p : Option Ptr) : Server :=
  { s with
    objs := s.qhUsers.foldl
      (fun objs e =>
        match objs[e.2]? with
        | some u => objs.set e.2 { u with qmTargetCache := [] }
        | none => objs)
      s.objs }

/-- The constructor `ServerUser::ServerUser` (lines 71-79) applied to the object `base`
that the constructors of `Connection` and `User` leave, for the peer address `adr`. -/
def ServerUser.new (base : ServerUser) (adr : Nat) : ServerUser :=
  { base with sinPort := 0, sinAddr := adr, bUdp := true }

/-- One turn of the loop of `Server::newClient` (lines 646-705) for a pending socket with
peer address `adr`; `banned` is the outcome of the two ban checks. -/
def newClient (s : Server) (base : ServerUser) (adr : Nat) (banned : Bool) : Server :=
  if banned then s
  else
    match s.qqIds with
    | [] => s
    | id :: rest =>
      let u : ServerUser := { ServerUser.new base adr with uiSession := id }
      let p : Ptr := s.objs.length
      { s with
        objs := s.objs ++ [u],
        qqIds := rest,
        qhUsers := qhInsert s.qhUsers id p,
        qhHostUsers := hostInsert s.qhHostUsers adr p }

/-- The slot `Server::connectionClosed` (lines 769-806) for the connection `p`. The
control messages it sends (`UserRemove`) are not part of the datapath events. -/
def connectionClosed (s : Server) (p : Ptr) : Server :=
  match s.user p with
  | none => s
  | some u =>
    let s1 : Server :=
      { s with
        qhUsers := qhRemove s.qhUsers u.uiSession,
        qhHostUsers := hostRemove s.qhHostUsers u.sinAddr p,
        qhPeerUsers := qhRemove s.qhPeerUsers (peerKey u.sinAddr u.sinPort),
        qhChannels :=
          match u.cChannel with
          | some c => removeUser s.qhChannels c p
          | none => s.qhChannels }
    let s2 : Server := { s1 with qqIds := s1.qqIds ++ [u.uiSession] }
    if u.sState = State.Authenticated then clearACLCache s2 (some p) else s2

/-- Modelled from the spec: `Channel::addUser` is not in `Server.cpp`; "a user belongs to
exactly one channel at a time" (section 3), so the user leaves its channel and joins `c`. -/
def addUser (s : Server) (c : Nat) (p : Ptr) : Server :=
  match s.user p with
  | none => s
  | some u =>
    let m := match u.cChannel with
      | some old => removeUser s.qhChannels old p
      | none => s.qhChannels
    let m2 := match qhValue m c with
      | some ch => qhInsert m c { ch with qlUsers := ch.qlUsers ++ [p] }
      | none => m
    { s with qhChannels := m2, objs := s.objs.set p { u with cChannel := some c } }

/-- The method `Server::userEnterChannel(p, c, quiet)` (lines 945-976). -/
def userEnterChannel (dp : Deps) (s : Server) (p : Ptr) (c : Nat) (quiet : Bool) : Server :=
  let s1 := clearACLCache s (some p)
  match s1.user p with
  | none => s1
  | some u =>
    if quiet && u.cChannel == some c then s1
    else
      let s2 := addUser s1 c p
      if quiet then s2
      else
        let mayspeak := dp.hasPermission p c Perm.Speak
        let sup := u.bSuppressed
        match s2.user p with
        | none => s2
        | some u2 =>
          if !u2.bMute && mayspeak == sup then
            s2.setUser p { u2 with bSuppressed := !mayspeak }
          else s2

/-- The part of the constructor `Server::Server` (lines 81-155) that fills the state:
the queue of session ids 1..4999, no users, the channels read from the database. -/
def Server.new (channels : List (Nat × Channel)) (iMaxBandwidth : Int) : Server :=
  { objs := [], qhUsers := [], qhHostUsers := [], qhPeerUsers := [],
    qqIds := List.range' 1 4999, qhChannels := channels, iMaxBandwidth := iMaxBandwidth }

/-! ## Locating the positional trailer (lines 509-519) -/

/-- The read side of a `PacketDataStream`: the bytes not yet consumed and the flag `ok`. -/
structure Pds where
  data : List Nat
  ok : Bool
  deriving DecidableEq, Repr

/-- The operations of `PacketDataStream` (declared outside `Server.cpp`) that lines
509-519 call, as parameters. -/
structure PdsOps where
  /-- The extraction `pdi >> v` of an unsigned value: the value and the stream afterwards. -/
  read : Pds → Nat × Pds
  /-- The call `pdi.skip(n)`. -/
  skip : Pds → Nat → Pds
  /-- The call `pdi.left()`. -/
  left : Pds → Nat
  /-- The call `pdi.isValid()`. -/
  isValid : Pds → Bool

/-- The loop of lines 513-517, `while (counter && pdi.isValid()) { pdi >> v; pdi.skip(v); }`,
run for at most `fuel` turns; the body does not assign `counter`. The result is `none`
when the loop has not ended after `fuel` turns. -/
def skipFrames (ops : PdsOps) (counter : Nat) : Nat → Pds → Option Pds
  | 0, p => if counter != 0 && ops.isValid p then none else some p
  | fuel + 1, p =>
    if counter != 0 && ops.isValid p then
      let r := ops.read p
      skipFrames ops counter fuel (ops.skip r.2 (r.1 % 2 ^ 32))
    else some p

/-- Lines 495 and 509-519: the value assigned to `poslen` for the payload
`data + 1 .. data + len`, the loop being given `fuel` turns. -/
def framePosLen (ops : PdsOps) (fuel : Nat) (payload : List Nat) : Option Nat :=
  let pdi : Pds := { data := payload, ok := true }
  let r1 := ops.read pdi
  let r2 := ops.read r1.2
  (skipFrames ops (r2.1 % 2 ^ 32) fuel r2.2).map ops.left

/-! ## Definitions used to state the theorems -/

/-- What `SENDTO` emits for `pDst` when both caches are empty. -/
def deliver (s : Server) (u : Ptr) (usr : ServerUser) (buffer : List Nat) (poslen : Nat)
    (pDst : Ptr) : List Event :=
  (SENDTO s u usr buffer poslen pDst { qba := [], qba_npos := [] }).1

/-- The caches of `processMsg` hold nothing or the bytes they are filled from. -/
def CachesOk (buffer : List Nat) (poslen : Nat) (c : Caches) : Prop :=
  (c.qba = [] ∨ c.qba = buffer) ∧
    (c.qba_npos = [] ∨ c.qba_npos = buffer.take (buffer.length - poslen))

/-- What the loop over linked channels emits, without the caches. -/
def deliverLinked (dp : Deps) (s : Server) (u : Ptr) (usr : ServerUser) (buffer : List Nat)
    (poslen : Nat) (l : Nat) : List Event :=
  if dp.hasPermission u l Perm.Speak then
    match qhValue s.qhChannels l with
    | some lc => lc.qlUsers.flatMap (deliver s u usr buffer poslen)
    | none => []
  else []

/-- The bytes `SENDTO` hands to `sendMessage` for a destination with record `d`. -/
def packetFor (usr : ServerUser) (buffer : List Nat) (poslen : Nat) (d : ServerUser) : List Nat :=
  if poslen != 0 && d.ssContext == usr.ssContext then buffer
  else buffer.take (buffer.length - poslen)

/-- The sender `u`, with record `usr`, passes the tests of lines 486-507 for the packet
`data` at time `now`: authenticated, not muted, not suppressed, and after the frame is
recorded the rate is not above the ceiling `iMaxBandwidth`. -/
def Admitted (now : Nat) (s : Server) (u : Ptr) (usr : ServerUser) (data : List Nat) : Prop :=
  s.user u = some usr ∧ usr.sState = State.Authenticated ∧ usr.bMute = false ∧
    usr.bSuppressed = false ∧
    (usr.bwr.addFrame now (20 + 8 + 4 + data.length)).bytesPerSec now ≤ s.iMaxBandwidth

instance (now : Nat) (s : Server) (u : Ptr) (usr : ServerUser) (data : List Nat) :
    Decidable (Admitted now s u usr data) := by
  unfold Admitted
  infer_instance

/-- The record of the sender after `bw->addFrame(packetsize)`. -/
def afterFrame (now : Nat) (usr : ServerUser) (data : List Nat) : ServerUser :=
  { usr with bwr := usr.bwr.addFrame now (20 + 8 + 4 + data.length) }

/-- An event is addressed to a user that `SENDTO` lets through: a stored user other than
the sender `u` with neither deaf flag set. -/
def Addressed (s : Server) (u : Ptr) (e : Event) : Prop :=
  ∃ p d, s.user p = some d ∧ d.bDeaf = false ∧ d.bSelfDeaf = false ∧ p ≠ u ∧ e.dst? = some p

/-- The set `expansion(c)` of section 4.6, in the words of the spec. -/
def specExpansion (dp : Deps) (s : Server) (c : Nat) (includeLinks includeChildren : Bool) :
    List Nat :=
  match includeLinks, includeChildren with
  | false, false => [c]
  | true, false => dp.allLinks s.qhChannels c
  | false, true => dp.allChildren s.qhChannels c ++ [c]
  | true, true => dp.allLinks s.qhChannels c ++ dp.allChildren s.qhChannels c

/-- The contribution of one `ChannelSpec` to `channel_recipients` (section 4.6), in the
words of the spec: the channel exists, and `p` is a user of a channel `c'` of the
expansion on which the sender has Whisper permission, a member of the group evaluated at
`c'` when a group name is given. -/
def SpecChannelSpecRecipient (dp : Deps) (s : Server) (u : Ptr) (wtc : WhisperChannel)
    (p : Ptr) : Prop :=
  (∃ wc, qhValue s.qhChannels wtc.iId = some wc) ∧
    ∃ c' ∈ specExpansion dp s wtc.iId wtc.bLinks wtc.bChildren,
      dp.hasPermission u c' Perm.Whisper = true ∧
        (∃ ch, qhValue s.qhChannels c' = some ch ∧ p ∈ ch.qlUsers) ∧
        (wtc.qsGroup = "" ∨ dp.isMember c' wtc.qsGroup p = true)

/-- The set `channel_recipients` of section 4.6, in the words of the spec: the union over
the `ChannelSpec`s of the target. -/
def SpecChannelRecipients (dp : Deps) (s : Server) (u : Ptr) (wt : WhisperTarget)
    (p : Ptr) : Prop :=
  ∃ wtc ∈ wt.qlChannels, SpecChannelSpecRecipient dp s u wtc p

/-- The server `r` has the peer and host indices of `s`, and every stored user keeps its
UDP port. -/
def PortFrame (s r : Server) : Prop :=
  r.qhPeerUsers = s.qhPeerUsers ∧ r.qhHostUsers = s.qhHostUsers ∧
    ∀ p a, s.user p = some a → ∃ a1, r.user p = some a1 ∧ a1.sinPort = a.sinPort

/-- The server after lines 405-408 have recorded the source `(h, p2)` for the user `A`
with record `a`. -/
def learnPeer (s : Server) (h p2 : Nat) (A : Ptr) (a : ServerUser) : Server :=
  Server.setUser
    { s with
      qhHostUsers := hostRemove s.qhHostUsers h A,
      qhPeerUsers := qhInsert s.qhPeerUsers (peerKey h p2) A }
    A { a with sinPort := p2 }

/-- Every user held in the channel set or the direct set of a memoized whisper-target
entry of a user of `qhUsers` is itself a value of `qhUsers`. -/
def targetCacheLive (s : Server) : Bool :=
  s.qhUsers.all fun kv =>
    match s.user kv.2 with
    | none => true
    | some u =>
      u.qmTargetCache.all fun e =>
        (e.2.1 ++ e.2.2).all fun q => s.qhUsers.any fun kv2 => kv2.2 == q

/-- The states reachable from the constructor of `Server` through `newClient` and
`connectionClosed`; the slot `connectionClosed` runs for a connection that is in
`qhUsers` (the object is deleted afterwards). -/
inductive Reachable (channels : List (Nat × Channel)) (bw : Int) : Server → Prop
  | init : Reachable channels bw (Server.new channels bw)
  | client (s : Server) (base : ServerUser) (adr : Nat) (banned : Bool) :
      Reachable channels bw s → Reachable channels bw (newClient s base adr banned)
  | closed (s : Server) (id : Nat) (p : Ptr) :
      Reachable channels bw s → qhValue s.qhUsers id = some p →
      Reachable channels bw (connectionClosed s p)

/-- The bookkeeping of session ids: the pool has no duplicates, holds only ids of
1..4999 that are not keys of `qhUsers`, every id of 1..4999 is in the pool or a key of
`qhUsers`, the user stored under a key carries that key as its session id, and every
key of `qhUsers` is an id of 1..4999. -/
def SessionInv (s : Server) : Prop :=
  s.qqIds.Nodup ∧
    (∀ id ∈ s.qqIds, 1 ≤ id ∧ id < 5000 ∧ qhValue s.qhUsers id = none) ∧
    (∀ id, 1 ≤ id → id < 5000 → id ∈ s.qqIds ∨ ∃ p, qhValue s.qhUsers id = some p) ∧
    (∀ id p, qhValue s.qhUsers id = some p → ∃ u, s.user p = some u ∧ u.uiSession = id) ∧
    (∀ id p, qhValue s.qhUsers id = some p → 1 ≤ id ∧ id < 5000)

/-- The meter after the frames `fs`, each a time of recording and a size, oldest first,
have been recorded by `addFrame`. -/
def recordFrames (b : BandwidthRecord) (fs : List (Nat × Nat)) : BandwidthRecord :=
  fs.foldl (fun b f => b.addFrame f.1 f.2) b

/-- The values `static_cast<unsigned char>(size)` of the last 128 of the frames `fs`,
oldest first, preceded by zeros when fewer than 128 frames were recorded. -/
def window (fs : List (Nat × Nat)) : List Nat :=
  (List.replicate 128 0 ++ fs.map (fun f : Nat × Nat => f.2 % 256)).drop fs.length

/-- The ring of a meter holds the window of the frames `fs`, the oldest entry in the
slot `iRecNum`, and `iSum` is the sum of the window. -/
def RingInv (b : BandwidthRecord) (fs : List (Nat × Nat)) : Prop :=
  b.iRecNum < 128 ∧ b.iRecNum = fs.length % 128 ∧
    b.a_iBW = (window fs).rotate (128 - b.iRecNum) ∧ b.iSum = (((window fs).sum : Nat) : Int)

/-! ## A concrete server for the scenarios of section 8 -/

/-- Modelled from the spec: `Channel::allLinks` is not in `Server.cpp`; section 4.4 gives
the closure of `c` under the link relation by a search with a visited set. The search
runs one round per channel of the table, starting from the set holding `c`. -/
def linkClosure (m : List (Nat × Channel)) : Nat → List Nat → List Nat
  | 0, seen => seen
  | n + 1, seen =>
    linkClosure m n
      (seen.foldl (fun acc x => qsUnite acc (((qhValue m x).map Channel.qhLinks).getD [])) seen)

/-- Modelled from the spec: `Channel::allChildren` is not in `Server.cpp`; section 4.4
gives the transitive children of `c`. One round per channel of the table. -/
def childClosure (m : List (Nat × Channel)) : Nat → List Nat → List Nat
  | 0, seen => seen
  | n + 1, seen =>
    childClosure m n
      (seen.foldl (fun acc x => qsUnite acc (((qhValue m x).map Channel.qlChannels).getD []))
        seen)

/-- A varint for values below 0x4000: one byte below 0x80, else two bytes. -/
def exEncode (v : Nat) : List Nat :=
  if v < 128 then [v] else [128 + v / 256 % 64, v % 256]

/-- The parameters of the scenarios: every permission is granted, nobody is in a group,
no payload has positional bytes, and a datagram decrypts for the user whose pointer value
fills its four header bytes. -/
def exDeps : Deps :=
  { UDPVoice := 1, UDPPing := 2, UDPTunnel := 1,
    encode := exEncode,
    overflow := fun cap _ _ => List.replicate cap 0,
    posLen := fun _ => 0,
    allLinks := fun m c => linkClosure m m.length [c],
    allChildren := fun m c =>
      childClosure m m.length (((qhValue m c).map Channel.qlChannels).getD []),
    hasPermission := fun _ _ _ => true,
    isMember := fun _ _ _ => false,
    decrypt := fun p b => if b.take 4 = [p, p, p, p] then some (b.drop 4) else none }

/-- A user record: session, state, channel, deaf flag, whisper targets. -/
def exUser (session : Nat) (st : State) (chan : Option Nat) (deaf : Bool)
    (targets : List (Nat × WhisperTarget)) : ServerUser :=
  { uiSession := session, sState := st, bMute := false, bSuppressed := false,
    bDeaf := deaf, bSelfDeaf := false, ssContext := "", bUdp := true,
    sinAddr := 10, sinPort := 0,
    csCrypt := { valid := true, tLastGood := 0, tLastRequest := 0 },
    bwr := BandwidthRecord.new 0, cChannel := chan, qmTargets := targets,
    qmTargetCache := [] }

/-- The whisper targets of user A: 5 is channel 1 with its links, 7 is channel 1 alone
plus the sessions of D and B, 9 is the session of X alone. -/
def exTargets : List (Nat × WhisperTarget) :=
  [(5, { qlChannels := [{ iId := 1, bChildren := false, bLinks := true, qsGroup := "" }],
         qlSessions := [] }),
   (7, { qlChannels := [{ iId := 1, bChildren := false, bLinks := false, qsGroup := "" }],
         qlSessions := [3, 2] }),
   (9, { qlChannels := [], qlSessions := [5] })]

/-- User A: pointer 0, session 1, in channel 1. -/
def exA : ServerUser := exUser 1 State.Authenticated (some 1) false exTargets

/-- User B: pointer 1, session 2, in channel 2. -/
def exB : ServerUser := exUser 2 State.Authenticated (some 2) false []

/-- User D: pointer 2, session 3, in channel 1. -/
def exD : ServerUser := exUser 3 State.Authenticated (some 1) false []

/-- User E: pointer 3, session 4, in channel 2, deafened. -/
def exE : ServerUser := exUser 4 State.Authenticated (some 2) true []

/-- User X: pointer 4, session 5, connected but not yet authenticated, in no channel. -/
def exX : ServerUser := exUser 5 State.Connected none false []

/-- Channel 1 holds A and D and is linked with channel 2. -/
def exChan1 : Channel := { qlUsers := [0, 2], qhLinks := [2], qlChannels := [] }

/-- Channel 2 holds B and E and is linked with channel 1. -/
def exChan2 : Channel := { qlUsers := [1, 3], qhLinks := [1], qlChannels := [] }

/-- The server of the scenarios: five connections from host 10, none with a known UDP
port, two linked channels. -/
def exServer : Server :=
  { objs := [exA, exB, exD, exE, exX],
    qhUsers := [(1, 0), (2, 1), (3, 2), (4, 3), (5, 4)],
    qhHostUsers := [(10, [0, 1, 2, 3, 4])],
    qhPeerUsers := [],
    qqIds := (List.range' 6 4994),
    qhChannels := [(1, exChan1), (2, exChan2)],
    iMaxBandwidth := 100000 }

/-- A reader for the scenarios: a varint below 0x4000 as `exEncode` writes it; reading
past the end clears `ok` and yields what was read so far; `skip` beyond the end clears
`ok` and consumes nothing. -/
def exPds : PdsOps :=
  { read := fun p =>
      match p.data with
      | [] => (0, { p with ok := false })
      | b :: rest =>
        if b < 128 then (b, { p with data := rest })
        else
          match rest with
          | [] => (b % 64 * 256, { data := [], ok := false })
          | c :: rest2 => (b % 64 * 256 + c, { p with data := rest2 }),
    skip := fun p n => if n ≤ p.data.length then { p with data := p.data.drop n }
      else { p with ok := false },
    left := fun p => p.data.length,
    isValid := fun p => p.ok }

/-- The parameters of the scenarios with `posLen` computed by lines 509-519 over the
reader `exPds`. -/
def exPosDeps : Deps :=
  { exDeps with
    posLen := fun payload => (framePosLen exPds (payload.length + 1) payload).getD 0 }

/-- A client payload: sequence number 5, one audio frame of two bytes, and twelve
trailing positional bytes 1..12. -/
def exPayload : List Nat :=
  [5, 1, 2, 170, 187, 1, 2, 3, 4, 5, 6, 7, 8, 9, 10, 11, 12]

/-- The scenario server with D in another positional context than A and B. -/
def exCtxServer : Server :=
  exServer.setUser 2 { exD with ssContext := "world" }

/-! ## States of the scenarios reached through the code -/

/-- The scenario server after A (pointer 0), until then without a known UDP port, has
sent a ping from port 4000 of host 10: the receive loop has made A known at (10, 4000). -/
def exPeerServer : Server :=
  (runStep exDeps 1000000 exServer (Recv.datagram 10 4000 [0, 0, 0, 0, 64, 9])).1

/-- The scenario server after A has whispered once with target 9, which names the
session of X: the pair (no channel users, X) is memoized. -/
def exAfterWhisper : Server :=
  (processMsg exDeps 1000000 exServer 0 [32 + 9, 1, 2, 3]).1

/-- The server after X, still unauthenticated, has then closed its connection. -/
def exAfterClose : Server :=
  connectionClosed exAfterWhisper 4

/-- The server after two clients have connected from host 10 and the first has closed
its connection. -/
def exClosedServer : Server :=
  connectionClosed (newClient (newClient (Server.new [] 100000) exX 10 false) exX 10 false) 0

/-- The scenario server with one more whisper target for A: 11 names session 6, which is
not connected (the next id of the pool). -/
def exListServer : Server :=
  exServer.setUser 0
    { exA with qmTargets := (11, { qlChannels := [], qlSessions := [6] }) :: exTargets }

/-- The server after A has whispered once with target 11: nobody has session 6, so the
pair of two empty sets is memoized. -/
def exMemoServer : Server :=
  (processMsg exDeps 1000000 exListServer 0 [32 + 11, 1, 2, 3]).1

/-- The server after a client has then connected and got session 6 (pointer 5). -/
def exStaleServer : Server :=
  newClient exMemoServer exX 10 false

/-! ## The send loops without their caches -/

theorem sendMessage_fst_of_cache (p : Ptr) (d : ServerUser) (data cache : List Nat) (force : Bool)
    (h : cache = [] ∨ cache = data) :
    (sendMessage p d data cache force).1 = (sendMessage p d data [] force).1 := by
  unfold sendMessage
  rcases h with h | h
  · subst h; rfl
  · subst h
    cases hc : cache.isEmpty
    · simp only [hc, List.isEmpty_nil]
      split <;> simp
    · have : cache = [] := by simpa using hc
      subst this; simp

theorem sendMessage_snd_of_cache (p : Ptr) (d : ServerUser) (data cache : List Nat) (force : Bool)
    (h : cache = [] ∨ cache = data) :
    (sendMessage p d data cache force).2 = [] ∨ (sendMessage p d data cache force).2 = data := by
  unfold sendMessage
  split
  · exact h
  · rcases h with h | h
    · subst h; right; simp
    · subst h
      cases hc : cache.isEmpty <;> simp [hc]

theorem sendMessage_dst (p : Ptr) (d : ServerUser) (data cache : List Nat) (force : Bool) :
    (sendMessage p d data cache force).1.dst? = some p := by
  unfold sendMessage
  split <;> rfl

theorem sendMessage_bytes (p : Ptr) (d : ServerUser) (data : List Nat) (force : Bool) :
    (sendMessage p d data [] force).1.bytes = data := by
  unfold sendMessage
  split <;> simp [Event.bytes]

theorem SENDTO_fst (s : Server) (u : Ptr) (usr : ServerUser) (buffer : List Nat) (poslen : Nat)
    (p : Ptr) (c : Caches) (hc : CachesOk buffer poslen c) :
    (SENDTO s u usr buffer poslen p c).1 = deliver s u usr buffer poslen p := by
  unfold deliver SENDTO
  cases hd : s.user p with
  | none => rfl
  | some d =>
    simp only
    split
    · split
      · simp only [List.cons.injEq, and_true]
        exact sendMessage_fst_of_cache _ _ _ _ _ hc.1
      · simp only [List.cons.injEq, and_true]
        exact sendMessage_fst_of_cache _ _ _ _ _ hc.2
    · rfl

theorem SENDTO_snd (s : Server) (u : Ptr) (usr : ServerUser) (buffer : List Nat) (poslen : Nat)
    (p : Ptr) (c : Caches) (hc : CachesOk buffer poslen c) :
    CachesOk buffer poslen (SENDTO s u usr buffer poslen p c).2 := by
  unfold SENDTO
  cases hd : s.user p with
  | none => exact hc
  | some d =>
    simp only
    split
    · split
      · exact ⟨sendMessage_snd_of_cache _ _ _ _ _ hc.1, hc.2⟩
      · exact ⟨hc.1, sendMessage_snd_of_cache _ _ _ _ _ hc.2⟩
    · exact hc

theorem cachesOk_empty (buffer : List Nat) (poslen : Nat) :
    CachesOk buffer poslen { qba := [], qba_npos := [] } :=
  ⟨Or.inl rfl, Or.inl rfl⟩

theorem sendToAll_spec (s : Server) (u : Ptr) (usr : ServerUser) (buffer : List Nat)
    (poslen : Nat) (l : List Ptr) (c : Caches) (hc : CachesOk buffer poslen c) :
    (sendToAll s u usr buffer poslen l c).1 = l.flatMap (deliver s u usr buffer poslen) ∧
      CachesOk buffer poslen (sendToAll s u usr buffer poslen l c).2 := by
  induction l generalizing c with
  | nil => exact ⟨rfl, hc⟩
  | cons p ps ih =>
    have h1 := SENDTO_fst s u usr buffer poslen p c hc
    have h2 := SENDTO_snd s u usr buffer poslen p c hc
    have h3 := ih _ h2
    simp only [sendToAll, List.flatMap_cons]
    exact ⟨by rw [h1, h3.1], h3.2⟩

theorem sendToLinked_spec (dp : Deps) (s : Server) (u : Ptr) (usr : ServerUser)
    (buffer : List Nat) (poslen : Nat) (chans : List Nat) (c : Caches)
    (hc : CachesOk buffer poslen c) :
    (sendToLinked dp s u usr buffer poslen chans c).1 =
        chans.flatMap (deliverLinked dp s u usr buffer poslen) ∧
      CachesOk buffer poslen (sendToLinked dp s u usr buffer poslen chans c).2 := by
  induction chans generalizing c with
  | nil => exact ⟨rfl, hc⟩
  | cons l ls ih =>
    simp only [sendToLinked, List.flatMap_cons, deliverLinked]
    cases hp : dp.hasPermission u l Perm.Speak with
    | false =>
      simp only [Bool.false_eq_true, if_false, List.nil_append]
      exact ih c hc
    | true =>
      simp only [if_true]
      cases hl : qhValue s.qhChannels l with
      | none =>
        simp only [List.nil_append]
        exact ih c hc
      | some lc =>
        simp only
        have h := sendToAll_spec s u usr buffer poslen lc.qlUsers c hc
        have h3 := ih _ h.2
        exact ⟨by rw [h.1, h3.1], h3.2⟩

theorem user_setUser_ne (s : Server) (u p : Ptr) (x : ServerUser) (h : p ≠ u) :
    (s.setUser u x).user p = s.user p := by
  simp only [Server.user, Server.setUser, List.getElem?_set]
  rw [if_neg (Ne.symm h)]

theorem user_setUser_self (s : Server) (u : Ptr) (x y : ServerUser) (h : s.user u = some y) :
    (s.setUser u x).user u = some x := by
  simp only [Server.user, Server.setUser, List.getElem?_set] at *
  have hlt : u < s.objs.length := by
    rcases Nat.lt_or_ge u s.objs.length with hn | hn
    · exact hn
    · rw [List.getElem?_eq_none hn] at h
      cases h
  simp [hlt]

theorem deliver_eligible (s : Server) (u : Ptr) (usr : ServerUser) (buffer : List Nat)
    (poslen : Nat) (p : Ptr) (d : ServerUser) (hd : s.user p = some d)
    (h1 : d.bDeaf = false) (h2 : d.bSelfDeaf = false) (h3 : p ≠ u) :
    deliver s u usr buffer poslen p =
      [(sendMessage p d (packetFor usr buffer poslen d) [] false).1] := by
  unfold deliver SENDTO packetFor
  simp only [hd, h1, h2]
  have : (p != u) = true := by simpa using h3
  simp only [this, Bool.not_false, Bool.and_self, if_true]
  split <;> rfl

theorem mem_deliver (s : Server) (u : Ptr) (usr : ServerUser) (buffer : List Nat)
    (poslen : Nat) (p : Ptr) (e : Event) (he : e ∈ deliver s u usr buffer poslen p) :
    ∃ d, s.user p = some d ∧ d.bDeaf = false ∧ d.bSelfDeaf = false ∧ p ≠ u ∧
      e = (sendMessage p d (packetFor usr buffer poslen d) [] false).1 := by
  unfold deliver SENDTO at he
  cases hd : s.user p with
  | none => simp [hd] at he
  | some d =>
    simp only [hd] at he
    by_cases hc : (!d.bDeaf && !d.bSelfDeaf && (p != u)) = true
    · have hc2 := hc
      simp only [Bool.and_eq_true, Bool.not_eq_true', bne_iff_ne, ne_eq] at hc2
      obtain ⟨⟨h1, h2⟩, h3⟩ := hc2
      have := deliver_eligible s u usr buffer poslen p d hd h1 h2 h3
      unfold deliver SENDTO at this
      simp only [hd] at this
      rw [this] at he
      exact ⟨d, rfl, h1, h2, h3, by simpa using he⟩
    · rw [if_neg hc] at he
      simp at he

theorem deliver_setUser (s : Server) (u : Ptr) (x usr : ServerUser) (buffer : List Nat)
    (poslen : Nat) (p : Ptr) :
    deliver (s.setUser u x) u usr buffer poslen p = deliver s u usr buffer poslen p := by
  by_cases h : p = u
  · subst h
    unfold deliver SENDTO
    cases h1 : (s.setUser p x).user p <;> cases h2 : s.user p <;> simp
  · unfold deliver SENDTO
    rw [user_setUser_ne s u p x h]

theorem deliver_setUser_fun (s : Server) (u : Ptr) (x usr : ServerUser) (buffer : List Nat)
    (poslen : Nat) :
    deliver (s.setUser u x) u usr buffer poslen = deliver s u usr buffer poslen :=
  funext (deliver_setUser s u x usr buffer poslen)

theorem whisperSend_spec (s : Server) (u : Ptr) (usr : ServerUser) (out : List Nat)
    (poslen : Nat) (channel direct : List Ptr) :
    whisperSend s u usr out poslen channel direct =
      channel.flatMap (deliver s u usr (1 :: out) poslen) ++
        direct.flatMap (deliver s u usr (2 :: out) poslen) := by
  unfold whisperSend
  cases channel with
  | nil =>
    cases direct with
    | nil => simp
    | cons q qs =>
      simp only [List.isEmpty_nil, Bool.not_true, Bool.false_eq_true, if_false,
        List.isEmpty_cons, Bool.not_false, if_true, List.nil_append, List.flatMap_nil]
      exact (sendToAll_spec s u usr (2 :: out) poslen (q :: qs) _ (cachesOk_empty _ _)).1
  | cons p ps =>
    cases direct with
    | nil =>
      simp only [List.isEmpty_nil, Bool.not_true, Bool.false_eq_true, if_false,
        List.isEmpty_cons, Bool.not_false, if_true, List.append_nil, List.flatMap_nil]
      exact (sendToAll_spec s u usr (1 :: out) poslen (p :: ps) _ (cachesOk_empty _ _)).1
    | cons q qs =>
      simp only [List.isEmpty_cons, Bool.not_false, if_true]
      rw [(sendToAll_spec s u usr (1 :: out) poslen (p :: ps) _ (cachesOk_empty _ _)).1,
        (sendToAll_spec s u usr (2 :: out) poslen (q :: qs) _ (cachesOk_empty _ _)).1]

theorem normalSpeech_spec (dp : Deps) (s : Server) (u : Ptr) (usr : ServerUser)
    (buffer : List Nat) (poslen : Nat) (cid : Nat) (c : Channel)
    (hc : usr.cChannel = some cid) (hv : qhValue s.qhChannels cid = some c) :
    normalSpeech dp s u usr buffer poslen =
      c.qlUsers.flatMap (deliver s u usr buffer poslen) ++
        (if c.qhLinks.isEmpty then []
         else ((dp.allLinks s.qhChannels cid).filter (fun l => decide (l ≠ cid))).flatMap
           (deliverLinked dp s u usr buffer poslen)) := by
  unfold normalSpeech
  simp only [hc, hv]
  have h := sendToAll_spec s u usr buffer poslen c.qlUsers _ (cachesOk_empty buffer poslen)
  cases hl : c.qhLinks.isEmpty with
  | true => simp [h.1]
  | false =>
    simp only [Bool.not_false, if_true, Bool.false_eq_true, if_false]
    rw [(sendToLinked_spec dp s u usr buffer poslen _ _ h.2).1, h.1]

theorem processMsg_admitted (dp : Deps) (now : Nat) (s : Server) (u : Ptr) (usr : ServerUser)
    (data : List Nat) (h : Admitted now s u usr data) :
    processMsg dp now s u data =
      (if data.headD 0 % 32 = 31 then
        (s.setUser u (afterFrame now usr data),
          [(sendMessage u (afterFrame now usr data)
            ((data.headD 0 % 32) :: pdsWrite dp 511 usr.uiSession data.tail) [] false).1])
      else if data.headD 0 % 32 = 0 then
        (s.setUser u (afterFrame now usr data),
          normalSpeech dp (s.setUser u (afterFrame now usr data)) u (afterFrame now usr data)
            (0 :: pdsWrite dp 511 usr.uiSession data.tail) (dp.posLen data.tail))
      else if qhContains usr.qmTargets (data.headD 0 % 32) then
        whisper dp (s.setUser u (afterFrame now usr data)) u (afterFrame now usr data)
          (data.headD 0 % 32) (pdsWrite dp 511 usr.uiSession data.tail) (dp.posLen data.tail)
      else (s.setUser u (afterFrame now usr data), [])) := by
  obtain ⟨h1, h2, h3, h4, h5⟩ := h
  have hcond : (usr.sState != State.Authenticated || usr.bMute || usr.bSuppressed) = false := by
    rw [h2, h3, h4]; rfl
  have hg : ¬ ((usr.bwr.addFrame now (20 + 8 + 4 + data.length)).bytesPerSec now
      > s.iMaxBandwidth) := not_lt.mpr h5
  unfold processMsg
  simp only [h1, hcond, Bool.false_eq_true, if_false, hg, afterFrame]

theorem pdsWrite_fits (dp : Deps) (cap session : Nat) (payload : List Nat)
    (h : (dp.encode session).length + payload.length ≤ cap) :
    pdsWrite dp cap session payload = dp.encode session ++ payload := by
  unfold pdsWrite
  simp only [List.length_append]
  rw [if_pos h]

theorem deliverLinked_setUser (dp : Deps) (s : Server) (u : Ptr) (x usr : ServerUser)
    (buffer : List Nat) (poslen : Nat) :
    deliverLinked dp (s.setUser u x) u usr buffer poslen =
      deliverLinked dp s u usr buffer poslen := by
  funext l
  unfold deliverLinked
  rw [deliver_setUser_fun]
  rfl

theorem packetFor_full (usr : ServerUser) (buffer : List Nat) (poslen : Nat) (d : ServerUser)
    (h : poslen = 0 ∨ d.ssContext = usr.ssContext) :
    packetFor usr buffer poslen d = buffer := by
  unfold packetFor
  rcases h with h | h
  · subst h; simp
  · by_cases hp : poslen = 0
    · subst hp; simp
    · simp [hp, h]

/-! ## C1: normal speech -/

/-- C1. Normal speech: an admitted sender `u` (authenticated, not muted, not suppressed,
under the bandwidth ceiling) sends a packet `data` of at most 508 bytes with target 0,
its session id taking at most four bytes as a varint. Every user `R` other than `u`,
neither deafened nor self-deafened, that is in the sender's channel, or in a channel of
`allLinks()` of that channel (other than the channel itself, the channel having links)
on which `u` has Speak permission, is sent the byte 0, then the varint of the sender's
session, then the bytes of `data` after the first, provided there are no positional
bytes or `R` has the sender's context. -/
theorem C1_normal_speech_delivery (dp : Deps) (now : Nat) (s : Server) (u : Ptr)
    (usr : ServerUser) (data : List Nat) (R : Ptr) (d : ServerUser) (cid : Nat) (c : Channel)
    (hadm : Admitted now s u usr data)
    (hlen : data.length ≤ 508)
    (henc : (dp.encode usr.uiSession).length ≤ 4)
    (htarget : data.headD 0 % 32 = 0)
    (hchan : usr.cChannel = some cid) (hc : qhValue s.qhChannels cid = some c)
    (hR : s.user R = some d) (hRu : R ≠ u)
    (hdeaf : d.bDeaf = false) (hsdeaf : d.bSelfDeaf = false)
    (hin : R ∈ c.qlUsers ∨
      ∃ L lc, c.qhLinks ≠ [] ∧ L ∈ dp.allLinks s.qhChannels cid ∧ L ≠ cid ∧
        dp.hasPermission u L Perm.Speak = true ∧ qhValue s.qhChannels L = some lc ∧
        R ∈ lc.qlUsers)
    (hpos : dp.posLen data.tail = 0 ∨ d.ssContext = usr.ssContext) :
    ∃ e ∈ (processMsg dp now s u data).2,
      e.dst? = some R ∧ e.bytes = 0 :: (dp.encode usr.uiSession ++ data.tail) := by
  have hfit : (dp.encode usr.uiSession).length + data.tail.length ≤ 511 := by
    have : data.tail.length ≤ 507 := by
      rw [List.length_tail]; omega
    omega
  rw [processMsg_admitted dp now s u usr data hadm]
  have h31 : ¬ data.headD 0 % 32 = 31 := by omega
  rw [if_neg h31, if_pos htarget]
  simp only
  have hchan2 : (afterFrame now usr data).cChannel = some cid := hchan
  have hc2 : qhValue (s.setUser u (afterFrame now usr data)).qhChannels cid = some c := hc
  rw [normalSpeech_spec dp _ u _ _ _ cid c hchan2 hc2, deliver_setUser_fun,
    deliverLinked_setUser, pdsWrite_fits dp 511 _ _ hfit]
  have hdel := deliver_eligible s u (afterFrame now usr data)
    (0 :: (dp.encode usr.uiSession ++ data.tail)) (dp.posLen data.tail) R d hR hdeaf hsdeaf hRu
  refine ⟨(sendMessage R d (packetFor (afterFrame now usr data)
    (0 :: (dp.encode usr.uiSession ++ data.tail)) (dp.posLen data.tail) d) [] false).1,
    ?_, sendMessage_dst _ _ _ _ _, ?_⟩
  · rw [List.mem_append]
    rcases hin with hin | ⟨L, lc, hl, hL, hne, hperm, hlc, hRl⟩
    · left
      rw [List.mem_flatMap]
      exact ⟨R, hin, by rw [hdel]; exact List.mem_singleton.mpr rfl⟩
    · right
      have hle : c.qhLinks.isEmpty = false := by
        cases hq : c.qhLinks with
        | nil => exact absurd hq hl
        | cons a b => rfl
      rw [hle]
      simp only [Bool.false_eq_true, if_false]
      rw [List.mem_flatMap]
      refine ⟨L, ?_, ?_⟩
      · rw [List.mem_filter]
        exact ⟨hL, by simpa using hne⟩
      · unfold deliverLinked
        rw [if_pos hperm, hlc]
        simp only
        rw [List.mem_flatMap]
        exact ⟨R, hRl, by rw [hdel]; exact List.mem_singleton.mpr rfl⟩
  · rw [sendMessage_bytes]
    exact packetFor_full _ _ _ _ hpos

/-- C1 at the scenario "simple broadcast": A sends `01 02 03` with target 0 and D, in
the same channel, is sent `00`, the varint of A's session, `01 02 03`. -/
theorem C1_normal_speech_delivery_witness :
    ∃ e ∈ (processMsg exDeps 1000000 exServer 0 [32, 1, 2, 3]).2,
      e.dst? = some 2 ∧ e.bytes = 0 :: (exDeps.encode exA.uiSession ++ [1, 2, 3]) :=
  C1_normal_speech_delivery exDeps 1000000 exServer 0 exA [32, 1, 2, 3] 2 exD 1 exChan1
    (by decide) (by decide) (by decide) (by decide) rfl rfl rfl (by decide) rfl rfl
    (Or.inl (by decide)) (Or.inl rfl)

/-! ## C2: deafened users and the sender are skipped -/

theorem mem_sendToAll (s : Server) (u : Ptr) (usr : ServerUser) (buffer : List Nat)
    (poslen : Nat) (l : List Ptr) (c : Caches) (e : Event)
    (he : e ∈ (sendToAll s u usr buffer poslen l c).1) :
    ∃ p ∈ l, ∃ d, s.user p = some d ∧ d.bDeaf = false ∧ d.bSelfDeaf = false ∧ p ≠ u ∧
      e.dst? = some p := by
  induction l generalizing c with
  | nil => simp [sendToAll] at he
  | cons p ps ih =>
    simp only [sendToAll, List.mem_append] at he
    rcases he with he | he
    · refine ⟨p, List.mem_cons_self _ _, ?_⟩
      unfold SENDTO at he
      cases hd : s.user p with
      | none => simp [hd] at he
      | some d =>
        simp only [hd] at he
        by_cases hc : (!d.bDeaf && !d.bSelfDeaf && (p != u)) = true
        · have hc2 := hc
          simp only [Bool.and_eq_true, Bool.not_eq_true', bne_iff_ne, ne_eq] at hc2
          obtain ⟨⟨h1, h2⟩, h3⟩ := hc2
          rw [if_pos hc] at he
          refine ⟨d, rfl, h1, h2, h3, ?_⟩
          split at he
          · simp only [List.mem_singleton] at he
            rw [he]; exact sendMessage_dst _ _ _ _ _
          · simp only [List.mem_singleton] at he
            rw [he]; exact sendMessage_dst _ _ _ _ _
        · rw [if_neg hc] at he
          simp at he
    · obtain ⟨q, hq, h⟩ := ih _ he
      exact ⟨q, List.mem_cons_of_mem _ hq, h⟩

theorem addressed_sendToAll (s : Server) (u : Ptr) (usr : ServerUser) (buffer : List Nat)
    (poslen : Nat) (l : List Ptr) (c : Caches) (e : Event)
    (he : e ∈ (sendToAll s u usr buffer poslen l c).1) : Addressed s u e := by
  obtain ⟨p, _, d, h⟩ := mem_sendToAll s u usr buffer poslen l c e he
  exact ⟨p, d, h⟩

theorem addressed_sendToLinked (dp : Deps) (s : Server) (u : Ptr) (usr : ServerUser)
    (buffer : List Nat) (poslen : Nat) (chans : List Nat) (c : Caches) (e : Event)
    (he : e ∈ (sendToLinked dp s u usr buffer poslen chans c).1) : Addressed s u e := by
  induction chans generalizing c with
  | nil => simp [sendToLinked] at he
  | cons l ls ih =>
    simp only [sendToLinked, List.mem_append] at he
    rcases he with he | he
    · split at he
      · split at he
        · exact addressed_sendToAll _ _ _ _ _ _ _ _ he
        · simp at he
      · simp at he
    · exact ih _ he

theorem addressed_normalSpeech (dp : Deps) (s : Server) (u : Ptr) (usr : ServerUser)
    (buffer : List Nat) (poslen : Nat) (e : Event)
    (he : e ∈ normalSpeech dp s u usr buffer poslen) : Addressed s u e := by
  unfold normalSpeech at he
  split at he
  · simp at he
  · split at he
    · simp at he
    · split at he
      · rw [List.mem_append] at he
        rcases he with he | he
        · exact addressed_sendToAll _ _ _ _ _ _ _ _ he
        · exact addressed_sendToLinked _ _ _ _ _ _ _ _ _ he
      · exact addressed_sendToAll _ _ _ _ _ _ _ _ he

theorem addressed_whisperSend (s : Server) (u : Ptr) (usr : ServerUser) (out : List Nat)
    (poslen : Nat) (channel direct : List Ptr) (e : Event)
    (he : e ∈ whisperSend s u usr out poslen channel direct) : Addressed s u e := by
  rw [whisperSend_spec, List.mem_append, List.mem_flatMap, List.mem_flatMap] at he
  rcases he with ⟨p, _, hp⟩ | ⟨p, _, hp⟩
  · obtain ⟨d, h1, h2, h3, h4, h5⟩ := mem_deliver _ _ _ _ _ _ _ hp
    exact ⟨p, d, h1, h2, h3, h4, by rw [h5]; exact sendMessage_dst _ _ _ _ _⟩
  · obtain ⟨d, h1, h2, h3, h4, h5⟩ := mem_deliver _ _ _ _ _ _ _ hp
    exact ⟨p, d, h1, h2, h3, h4, by rw [h5]; exact sendMessage_dst _ _ _ _ _⟩

theorem addressed_of_setUser (s : Server) (u : Ptr) (x : ServerUser) (e : Event)
    (h : Addressed (s.setUser u x) u e) : Addressed s u e := by
  obtain ⟨p, d, h1, h2, h3, h4, h5⟩ := h
  rw [user_setUser_ne s u p x h4] at h1
  exact ⟨p, d, h1, h2, h3, h4, h5⟩

theorem addressed_whisper (dp : Deps) (s : Server) (u : Ptr) (usr : ServerUser) (target : Nat)
    (out : List Nat) (poslen : Nat) (e : Event)
    (he : e ∈ (whisper dp s u usr target out poslen).2) : Addressed s u e := by
  unfold whisper at he
  split at he
  · exact addressed_whisperSend _ _ _ _ _ _ _ _ he
  · simp only at he
    split at he
    · exact addressed_of_setUser _ _ _ _ (addressed_whisperSend _ _ _ _ _ _ _ _ he)
    · simp at he

theorem addressed_processMsg (dp : Deps) (now : Nat) (s : Server) (u : Ptr) (data : List Nat)
    (htarget : data.headD 0 % 32 ≠ 31) (e : Event)
    (he : e ∈ (processMsg dp now s u data).2) : Addressed s u e := by
  unfold processMsg at he
  split at he
  · simp at he
  · split at he
    · simp at he
    · simp only at he
      split at he
      · simp at he
      · split at he
        · exact addressed_of_setUser _ _ _ _ (addressed_normalSpeech _ _ _ _ _ _ _ he)
        · split at he
          · exact addressed_of_setUser _ _ _ _ (addressed_whisper _ _ _ _ _ _ _ _ he)
          · simp at he

/-- C2. For every sender `u`, packet `data` and target other than 31, no event of
`processMsg` is addressed to a user `R` that is deafened, self-deafened or the sender
itself, whichever loop (own channel, linked channel, whisper channel set, whisper direct
set) reached it. -/
theorem C2_deaf_and_self_skipped (dp : Deps) (now : Nat) (s : Server) (u : Ptr)
    (data : List Nat) (R : Ptr) (d : ServerUser)
    (htarget : data.headD 0 % 32 ≠ 31)
    (hR : s.user R = some d)
    (hskip : d.bDeaf = true ∨ d.bSelfDeaf = true ∨ R = u) :
    ∀ e ∈ (processMsg dp now s u data).2, e.dst? ≠ some R := by
  intro e he hdst
  obtain ⟨p, d2, h1, h2, h3, h4, h5⟩ := addressed_processMsg dp now s u data htarget e he
  rw [h5] at hdst
  have hp : p = R := Option.some.inj hdst
  subst hp
  rw [hR] at h1
  have hd : d = d2 := Option.some.inj h1
  subst hd
  rcases hskip with h | h | h
  · rw [h] at h2; cases h2
  · rw [h] at h3; cases h3
  · exact h4 h

/-- C2 at the scenario "deaf skip": E is deafened and in a channel linked to A's; A's
normal speech produces no event addressed to E. -/
theorem C2_deaf_and_self_skipped_witness :
    ¬ ∃ e ∈ (processMsg exDeps 1000000 exServer 0 [32, 1, 2, 3]).2, e.dst? = some 3 :=
  fun ⟨e, he, hd⟩ =>
    C2_deaf_and_self_skipped exDeps 1000000 exServer 0 [32, 1, 2, 3] 3 exE (by decide) rfl
      (Or.inl rfl) e he hd

/-! ## C3: the channel recipient set of a whisper target -/

theorem mem_qsInsert (l : List Ptr) (p x : Ptr) : x ∈ qsInsert l p ↔ x ∈ l ∨ x = p := by
  unfold qsInsert
  split
  · constructor
    · intro h; exact Or.inl h
    · rintro (h | h)
      · exact h
      · subst h; assumption
  · simp

theorem mem_foldl_of_step {α : Type} (f : List Ptr → α → List Ptr) (P : α → Ptr → Prop)
    (hf : ∀ acc a x, x ∈ f acc a ↔ x ∈ acc ∨ P a x) (l : List α) (acc : List Ptr) (x : Ptr) :
    x ∈ l.foldl f acc ↔ x ∈ acc ∨ ∃ a ∈ l, P a x := by
  induction l generalizing acc with
  | nil => simp
  | cons a as ih =>
    rw [List.foldl_cons, ih, hf]
    constructor
    · rintro ((h | h) | ⟨b, hb, h⟩)
      · exact Or.inl h
      · exact Or.inr ⟨a, List.mem_cons_self _ _, h⟩
      · exact Or.inr ⟨b, List.mem_cons_of_mem _ hb, h⟩
    · rintro (h | ⟨b, hb, h⟩)
      · exact Or.inl (Or.inl h)
      · rcases List.mem_cons.mp hb with hb | hb
        · subst hb; exact Or.inl (Or.inr h)
        · exact Or.inr ⟨b, hb, h⟩

theorem mem_qsUnite (l r : List Nat) (x : Nat) : x ∈ qsUnite l r ↔ x ∈ l ∨ x ∈ r := by
  unfold qsUnite
  rw [mem_foldl_of_step qsInsert (fun a x => x = a) (fun acc a x => mem_qsInsert acc a x)]
  simp

theorem mem_foldl_qsInsert (users ch : List Ptr) (x : Ptr) :
    x ∈ users.foldl qsInsert ch ↔ x ∈ ch ∨ x ∈ users :=
  mem_qsUnite ch users x

theorem mem_addChannelUsers (dp : Deps) (tc : Nat) (group : Bool) (g : String)
    (users ch : List Ptr) (x : Ptr) :
    x ∈ addChannelUsers dp tc group g users ch ↔
      x ∈ ch ∨ (x ∈ users ∧ (group = false ∨ dp.isMember tc g x = true)) := by
  unfold addChannelUsers
  rw [mem_foldl_of_step _ (fun a x => x = a ∧ (group = false ∨ dp.isMember tc g a = true))]
  · constructor
    · rintro (h | ⟨a, ha, h1, h2⟩)
      · exact Or.inl h
      · subst h1; exact Or.inr ⟨ha, h2⟩
    · rintro (h | ⟨h1, h2⟩)
      · exact Or.inl h
      · exact Or.inr ⟨x, h1, rfl, h2⟩
  · intro acc a y
    by_cases hc : (!group || dp.isMember tc g a) = true
    · rw [if_pos hc, mem_qsInsert]
      have : group = false ∨ dp.isMember tc g a = true := by
        cases group <;> simp_all
      simp [this]
    · rw [if_neg hc]
      have : ¬ (group = false ∨ dp.isMember tc g a = true) := by
        cases group <;> simp_all
      simp [this]

theorem mem_whisperExpansion (dp : Deps) (s : Server) (wtc : WhisperChannel) (wc : Channel)
    (hlinks : wc.qhLinks = [] → ∀ x, x ∈ dp.allLinks s.qhChannels wtc.iId ↔ x = wtc.iId)
    (hchildren : wc.qlChannels = [] → ∀ x, x ∉ dp.allChildren s.qhChannels wtc.iId)
    (x : Nat) :
    x ∈ whisperExpansion dp s wtc.iId (wtc.bLinks && !wc.qhLinks.isEmpty)
        (wtc.bChildren && !wc.qlChannels.isEmpty) ↔
      x ∈ specExpansion dp s wtc.iId wtc.bLinks wtc.bChildren := by
  unfold whisperExpansion specExpansion
  cases hl : wtc.bLinks <;> cases hc : wtc.bChildren <;>
    cases hle : wc.qhLinks.isEmpty <;> cases hce : wc.qlChannels.isEmpty <;>
    simp only [Bool.false_and, Bool.true_and, Bool.not_true, Bool.not_false,
      Bool.false_eq_true, if_false, if_true, mem_qsUnite, List.mem_append,
      List.mem_singleton] <;>
    (try have hl' := hlinks (List.isEmpty_iff.mp hle) x) <;>
    (try have hc' := hchildren (List.isEmpty_iff.mp hce) x) <;>
    tauto

theorem mem_whisperChannelStep (dp : Deps) (s : Server) (u : Ptr)
    (hlinks : ∀ c wc, qhValue s.qhChannels c = some wc → wc.qhLinks = [] →
      ∀ x, x ∈ dp.allLinks s.qhChannels c ↔ x = c)
    (hchildren : ∀ c wc, qhValue s.qhChannels c = some wc → wc.qlChannels = [] →
      ∀ x, x ∉ dp.allChildren s.qhChannels c)
    (channel : List Ptr) (wtc : WhisperChannel) (p : Ptr) :
    p ∈ whisperChannelStep dp s u channel wtc ↔
      p ∈ channel ∨ SpecChannelSpecRecipient dp s u wtc p := by
  unfold whisperChannelStep SpecChannelSpecRecipient
  cases hv : qhValue s.qhChannels wtc.iId with
  | none => simp
  | some wc =>
    have hexp := mem_whisperExpansion dp s wtc wc (hlinks _ _ hv) (hchildren _ _ hv)
    have hgrp : (wtc.qsGroup != "") = false ↔ wtc.qsGroup = "" := by simp
    simp only [Option.some.injEq, exists_eq', true_and]
    split
    · rename_i hcommon
      simp only [Bool.and_eq_true, Bool.not_eq_true'] at hcommon
      obtain ⟨⟨hl, hc⟩, hg⟩ := hcommon
      have hexp2 : ∀ x, x ∈ specExpansion dp s wtc.iId wtc.bLinks wtc.bChildren ↔
          x = wtc.iId := by
        intro x
        rw [← hexp x, hl, hc]
        simp [whisperExpansion]
      have hg2 : wtc.qsGroup = "" := hgrp.mp hg
      constructor
      · intro h
        split at h
        · rename_i hperm
          rcases (mem_foldl_qsInsert _ _ _).mp h with h | h
          · exact Or.inl h
          · exact Or.inr ⟨wtc.iId, (hexp2 _).mpr rfl, hperm, ⟨wc, hv, h⟩, Or.inl hg2⟩
        · exact Or.inl h
      · rintro (h | ⟨c', hc', hperm, ⟨ch, hch, hp⟩, _⟩)
        · split
          · exact (mem_foldl_qsInsert _ _ _).mpr (Or.inl h)
          · exact h
        · have := (hexp2 c').mp hc'
          subst this
          rw [hv] at hch
          cases hch
          rw [if_pos hperm]
          exact (mem_foldl_qsInsert _ _ _).mpr (Or.inr hp)
    · rw [mem_foldl_of_step _ (fun tc x => dp.hasPermission u tc Perm.Whisper = true ∧
        ∃ ch, qhValue s.qhChannels tc = some ch ∧ x ∈ ch.qlUsers ∧
          ((wtc.qsGroup != "") = false ∨ dp.isMember tc wtc.qsGroup x = true))]
      · constructor
        · rintro (h | ⟨tc, htc, hperm, ch, hch, hp, hg⟩)
          · exact Or.inl h
          · exact Or.inr ⟨tc, (hexp tc).mp htc, hperm, ⟨ch, hch, hp⟩,
              hg.imp hgrp.mp id⟩
        · rintro (h | ⟨tc, htc, hperm, ⟨ch, hch, hp⟩, hg⟩)
          · exact Or.inl h
          · exact Or.inr ⟨tc, (hexp tc).mpr htc, hperm, ch, hch, hp, hg.imp hgrp.mpr id⟩
      · intro acc tc x
        by_cases hperm : dp.hasPermission u tc Perm.Whisper = true
        · rw [if_pos hperm]
          cases hch : qhValue s.qhChannels tc with
          | none => simp
          | some ch =>
            simp only [mem_addChannelUsers, hperm, true_and, Option.some.injEq,
              exists_eq_left']
        · rw [if_neg hperm]
          simp [hperm]

theorem mem_whisperChannels (dp : Deps) (s : Server) (u : Ptr)
    (hlinks : ∀ c wc, qhValue s.qhChannels c = some wc → wc.qhLinks = [] →
      ∀ x, x ∈ dp.allLinks s.qhChannels c ↔ x = c)
    (hchildren : ∀ c wc, qhValue s.qhChannels c = some wc → wc.qlChannels = [] →
      ∀ x, x ∉ dp.allChildren s.qhChannels c)
    (wt : WhisperTarget) (p : Ptr) :
    p ∈ whisperChannels dp s u wt ↔ SpecChannelRecipients dp s u wt p := by
  unfold whisperChannels SpecChannelRecipients
  cases hq : wt.qlChannels with
  | nil => simp
  | cons a as =>
    simp only [List.isEmpty_cons, Bool.not_false, if_true]
    rw [mem_foldl_of_step _ _ (mem_whisperChannelStep dp s u hlinks hchildren)]
    simp

theorem qhValue_qhInsert_self {β : Type} (m : List (Nat × β)) (k : Nat) (v : β) :
    qhValue (qhInsert m k v) k = some v := by
  simp [qhInsert, qhValue]

theorem whisper_fresh (dp : Deps) (s : Server) (u : Ptr) (usr : ServerUser) (target : Nat)
    (out : List Nat) (poslen : Nat) (wt : WhisperTarget)
    (hwt : qhValue usr.qmTargets target = some wt)
    (hmemo : qhValue usr.qmTargetCache target = none)
    (hsess : qhContains s.qhUsers usr.uiSession = true) :
    whisper dp s u usr target out poslen =
      (s.setUser u { usr with qmTargetCache := (qhInsert usr.qmTargetCache target
          (whisperChannels dp s u wt, whisperDirect s wt (whisperChannels dp s u wt))) },
        whisperSend s u usr out poslen (whisperChannels dp s u wt)
          (whisperDirect s wt (whisperChannels dp s u wt))) := by
  unfold whisper
  simp only [hmemo, hwt, Option.getD_some, hsess, if_true]
  rw [whisperSend_spec, whisperSend_spec, deliver_setUser_fun, deliver_setUser_fun]

theorem processMsg_whisper_fresh (dp : Deps) (now : Nat) (s : Server) (u : Ptr)
    (usr : ServerUser) (data : List Nat) (T : Nat) (wt : WhisperTarget)
    (hadm : Admitted now s u usr data)
    (hT : data.headD 0 % 32 = T) (h1 : 1 ≤ T) (h30 : T ≤ 30)
    (hwt : qhValue usr.qmTargets T = some wt)
    (hmemo : qhValue usr.qmTargetCache T = none)
    (hsess : qhContains s.qhUsers usr.uiSession = true) :
    processMsg dp now s u data =
      ((s.setUser u (afterFrame now usr data)).setUser u
          { afterFrame now usr data with qmTargetCache := (qhInsert usr.qmTargetCache T
            (whisperChannels dp s u wt, whisperDirect s wt (whisperChannels dp s u wt))) },
        whisperSend s u (afterFrame now usr data) (pdsWrite dp 511 usr.uiSession data.tail)
          (dp.posLen data.tail) (whisperChannels dp s u wt)
          (whisperDirect s wt (whisperChannels dp s u wt))) := by
  rw [processMsg_admitted dp now s u usr data hadm, hT]
  have h31 : ¬ T = 31 := by omega
  have h0 : ¬ T = 0 := by omega
  have hc : qhContains usr.qmTargets T = true := by
    unfold qhContains; rw [hwt]; rfl
  rw [if_neg h31, if_neg h0, if_pos hc]
  rw [whisper_fresh dp (s.setUser u (afterFrame now usr data)) u (afterFrame now usr data) T
    _ _ wt hwt hmemo hsess]
  have hch : whisperChannels dp (s.setUser u (afterFrame now usr data)) u wt =
      whisperChannels dp s u wt := rfl
  have hdi : ∀ ch, whisperDirect (s.setUser u (afterFrame now usr data)) wt ch =
      whisperDirect s wt ch := fun _ => rfl
  rw [hch, hdi, whisperSend_spec, whisperSend_spec, deliver_setUser_fun, deliver_setUser_fun]
  rfl

theorem linkClosure_single (m : List (Nat × Channel)) (c : Nat) (wc : Channel)
    (hv : qhValue m c = some wc) (hl : wc.qhLinks = []) (n : Nat) :
    linkClosure m n [c] = [c] := by
  induction n with
  | zero => rfl
  | succ n ih =>
    simp only [linkClosure, List.foldl_cons, List.foldl_nil, hv, Option.map_some',
      Option.getD_some, hl, qsUnite]
    exact ih

theorem childClosure_nil (m : List (Nat × Channel)) (n : Nat) : childClosure m n [] = [] := by
  induction n with
  | zero => rfl
  | succ n ih => simpa [childClosure] using ih

theorem exDeps_allLinks_unlinked (m : List (Nat × Channel)) (c : Nat) (wc : Channel)
    (hv : qhValue m c = some wc) (hl : wc.qhLinks = []) (x : Nat) :
    x ∈ exDeps.allLinks m c ↔ x = c := by
  show x ∈ linkClosure m m.length [c] ↔ x = c
  rw [linkClosure_single m c wc hv hl]
  simp

theorem exDeps_allChildren_childless (m : List (Nat × Channel)) (c : Nat) (wc : Channel)
    (hv : qhValue m c = some wc) (hl : wc.qlChannels = []) (x : Nat) :
    x ∉ exDeps.allChildren m c := by
  show x ∉ childClosure m m.length (((qhValue m c).map Channel.qlChannels).getD [])
  rw [hv]
  simp only [Option.map_some', Option.getD_some, hl, childClosure_nil]
  simp

/-- C3. An admitted sender `u` sends with a whisper target `T` in 1..30 that is defined
(`wt`) and has no memoized entry, the sender's session being in `qhUsers`. Provided
`allLinks()` of a channel without links is that channel alone and `allChildren()` of a
channel without children is empty, the channel set that `processMsg` computes and
memoizes under `T` has exactly the members of the spec's `channel_recipients`: the union
over the ChannelSpecs whose channel exists of the users of every channel of
`expansion(c)` on which the sender has Whisper permission, restricted to the members of
the group when a group name is given. -/
theorem C3_whisper_channel_set (dp : Deps) (now : Nat) (s : Server) (u : Ptr)
    (usr : ServerUser) (data : List Nat) (T : Nat) (wt : WhisperTarget)
    (hadm : Admitted now s u usr data)
    (hT : data.headD 0 % 32 = T) (h1 : 1 ≤ T) (h30 : T ≤ 30)
    (hwt : qhValue usr.qmTargets T = some wt)
    (hmemo : qhValue usr.qmTargetCache T = none)
    (hsess : qhContains s.qhUsers usr.uiSession = true)
    (hlinks : ∀ c wc, qhValue s.qhChannels c = some wc → wc.qhLinks = [] →
      ∀ x, x ∈ dp.allLinks s.qhChannels c ↔ x = c)
    (hchildren : ∀ c wc, qhValue s.qhChannels c = some wc → wc.qlChannels = [] →
      ∀ x, x ∉ dp.allChildren s.qhChannels c) :
    ∃ usr1 channel direct,
      (processMsg dp now s u data).1.user u = some usr1 ∧
      qhValue usr1.qmTargetCache T = some (channel, direct) ∧
      channel = whisperChannels dp s u wt ∧
      ∀ p, p ∈ channel ↔ SpecChannelRecipients dp s u wt p := by
  rw [processMsg_whisper_fresh dp now s u usr data T wt hadm hT h1 h30 hwt hmemo hsess]
  refine ⟨_, whisperChannels dp s u wt, whisperDirect s wt (whisperChannels dp s u wt),
    user_setUser_self _ u _ (afterFrame now usr data)
      (user_setUser_self s u _ usr hadm.1), qhValue_qhInsert_self _ _ _, rfl, ?_⟩
  exact mem_whisperChannels dp s u hlinks hchildren wt

/-- C3 at the scenario "whisper with linked channels": target 5 of A names channel 1
with its links; the memoized channel set is the spec's `channel_recipients`. -/
theorem C3_whisper_channel_set_witness :
    ∃ usr1 channel direct,
      (processMsg exDeps 1000000 exServer 0 [37, 1, 2, 3]).1.user 0 = some usr1 ∧
      qhValue usr1.qmTargetCache 5 = some (channel, direct) ∧
      channel = whisperChannels exDeps exServer 0
        { qlChannels := [{ iId := 1, bChildren := false, bLinks := true, qsGroup := "" }],
          qlSessions := [] } ∧
      ∀ p, p ∈ channel ↔ SpecChannelRecipients exDeps exServer 0
        { qlChannels := [{ iId := 1, bChildren := false, bLinks := true, qsGroup := "" }],
          qlSessions := [] } p :=
  C3_whisper_channel_set exDeps 1000000 exServer 0 exA [37, 1, 2, 3] 5 _ (by decide) rfl
    (by decide) (by decide) rfl rfl rfl
    (fun c wc hv hl => exDeps_allLinks_unlinked _ c wc hv hl)
    (fun c wc hv hl => exDeps_allChildren_childless _ c wc hv hl)

/-! ## C4: the direct set and single delivery -/

theorem nodup_qsInsert (l : List Ptr) (p : Ptr) (h : l.Nodup) : (qsInsert l p).Nodup := by
  unfold qsInsert
  split
  · exact h
  · rename_i hp
    rw [List.nodup_append]
    refine ⟨h, List.nodup_singleton p, ?_⟩
    intro a ha hb
    rw [List.mem_singleton] at hb
    subst hb
    exact hp ha

theorem nodup_foldl_of_step {α : Type} (f : List Ptr → α → List Ptr)
    (hf : ∀ acc a, acc.Nodup → (f acc a).Nodup) (l : List α) (acc : List Ptr)
    (h : acc.Nodup) : (l.foldl f acc).Nodup := by
  induction l generalizing acc with
  | nil => exact h
  | cons a as ih => exact ih _ (hf _ _ h)

theorem nodup_whisperChannelStep (dp : Deps) (s : Server) (u : Ptr) (channel : List Ptr)
    (wtc : WhisperChannel) (h : channel.Nodup) :
    (whisperChannelStep dp s u channel wtc).Nodup := by
  unfold whisperChannelStep
  split
  · exact h
  · simp only
    split
    · split
      · exact nodup_foldl_of_step _ (fun acc a => nodup_qsInsert acc a) _ _ h
      · exact h
    · apply nodup_foldl_of_step _ _ _ _ h
      intro acc tc hacc
      split
      · split
        · unfold addChannelUsers
          apply nodup_foldl_of_step _ _ _ _ hacc
          intro acc2 p hacc2
          split
          · exact nodup_qsInsert _ _ hacc2
          · exact hacc2
        · exact hacc
      · exact hacc

theorem nodup_whisperChannels (dp : Deps) (s : Server) (u : Ptr) (wt : WhisperTarget) :
    (whisperChannels dp s u wt).Nodup := by
  unfold whisperChannels
  split
  · exact nodup_foldl_of_step _ (nodup_whisperChannelStep dp s u) _ _ List.nodup_nil
  · exact List.nodup_nil

theorem nodup_whisperDirect (s : Server) (wt : WhisperTarget) (channel : List Ptr) :
    (whisperDirect s wt channel).Nodup := by
  unfold whisperDirect
  apply nodup_foldl_of_step _ _ _ _ List.nodup_nil
  intro acc id hacc
  split
  · split
    · exact nodup_qsInsert _ _ hacc
    · exact hacc
  · exact hacc

theorem mem_whisperDirect (s : Server) (wt : WhisperTarget) (channel : List Ptr) (p : Ptr) :
    p ∈ whisperDirect s wt channel ↔
      (∃ id ∈ wt.qlSessions, qhValue s.qhUsers id = some p) ∧ p ∉ channel := by
  unfold whisperDirect
  rw [mem_foldl_of_step _ (fun id x => qhValue s.qhUsers id = some x ∧ x ∉ channel)]
  · simp only [List.not_mem_nil, false_or]
    constructor
    · rintro ⟨id, hid, h1, h2⟩
      exact ⟨⟨id, hid, h1⟩, h2⟩
    · rintro ⟨⟨id, hid, h1⟩, h2⟩
      exact ⟨id, hid, h1, h2⟩
  · intro acc id x
    cases hv : qhValue s.qhUsers id with
    | none => simp
    | some q =>
      simp only [Option.some.injEq]
      cases hc : channel.contains q with
      | true =>
        have hq : q ∈ channel := by simpa using hc
        simp only [Bool.not_true, Bool.false_eq_true, if_false]
        constructor
        · intro h; exact Or.inl h
        · rintro (h | ⟨h1, h2⟩)
          · exact h
          · subst h1; exact absurd hq h2
      | false =>
        have hq : q ∉ channel := by
          intro hq
          have : channel.contains q = true := by simpa using hq
          rw [hc] at this
          cases this
        simp only [Bool.not_false, if_true, mem_qsInsert]
        constructor
        · rintro (h | h)
          · exact Or.inl h
          · subst h; exact Or.inr ⟨rfl, hq⟩
        · rintro (h | ⟨h1, _⟩)
          · exact Or.inl h
          · exact Or.inr h1.symm

theorem filter_deliver_self (s : Server) (u : Ptr) (usr : ServerUser) (buffer : List Nat)
    (poslen : Nat) (p : Ptr) :
    (deliver s u usr buffer poslen p).filter (fun e => decide (e.dst? = some p)) =
      deliver s u usr buffer poslen p := by
  rw [List.filter_eq_self]
  intro e he
  obtain ⟨d, _, _, _, _, h⟩ := mem_deliver s u usr buffer poslen p e he
  rw [h, sendMessage_dst]
  simp

theorem filter_deliver_other (s : Server) (u : Ptr) (usr : ServerUser) (buffer : List Nat)
    (poslen : Nat) (p R : Ptr) (hne : p ≠ R) :
    (deliver s u usr buffer poslen p).filter (fun e => decide (e.dst? = some R)) = [] := by
  rw [List.filter_eq_nil_iff]
  intro e he
  obtain ⟨d, _, _, _, _, h⟩ := mem_deliver s u usr buffer poslen p e he
  rw [h, sendMessage_dst]
  simpa using hne

theorem filter_flatMap_deliver (s : Server) (u : Ptr) (usr : ServerUser) (buffer : List Nat)
    (poslen : Nat) (R : Ptr) (l : List Ptr) (hl : l.Nodup) :
    (l.flatMap (deliver s u usr buffer poslen)).filter (fun e => decide (e.dst? = some R)) =
      if R ∈ l then deliver s u usr buffer poslen R else [] := by
  induction l with
  | nil => simp
  | cons p ps ih =>
    rw [List.nodup_cons] at hl
    rw [List.flatMap_cons, List.filter_append, ih hl.2]
    by_cases hp : p = R
    · subst hp
      rw [filter_deliver_self, if_neg hl.1]
      simp
    · rw [filter_deliver_other _ _ _ _ _ _ _ hp]
      have : (R ∈ p :: ps) ↔ R ∈ ps := by
        rw [List.mem_cons]
        constructor
        · rintro (h | h)
          · exact absurd h.symm hp
          · exact h
        · exact Or.inr
      simp only [this, List.nil_append]

theorem packetFor_head (usr : ServerUser) (b : Nat) (out : List Nat) (poslen : Nat)
    (d : ServerUser) (h : poslen ≤ out.length) :
    (packetFor usr (b :: out) poslen d).head? = some b := by
  unfold packetFor
  split
  · rfl
  · have : (b :: out).length - poslen = (out.length - poslen) + 1 := by
      simp only [List.length_cons]; omega
    rw [this, List.take_succ_cons]
    rfl

theorem processMsg_whisper_events (dp : Deps) (now : Nat) (s : Server) (u : Ptr)
    (usr : ServerUser) (data : List Nat) (T : Nat) (wt : WhisperTarget)
    (hadm : Admitted now s u usr data)
    (hT : data.headD 0 % 32 = T) (h1 : 1 ≤ T) (h30 : T ≤ 30)
    (hwt : qhValue usr.qmTargets T = some wt)
    (hmemo : qhValue usr.qmTargetCache T = none ∨
      qhValue usr.qmTargetCache T =
        some (whisperChannels dp s u wt, whisperDirect s wt (whisperChannels dp s u wt)))
    (hsess : qhContains s.qhUsers usr.uiSession = true) :
    (processMsg dp now s u data).2 =
      whisperSend s u (afterFrame now usr data) (pdsWrite dp 511 usr.uiSession data.tail)
        (dp.posLen data.tail) (whisperChannels dp s u wt)
        (whisperDirect s wt (whisperChannels dp s u wt)) := by
  rcases hmemo with hmemo | hmemo
  · rw [processMsg_whisper_fresh dp now s u usr data T wt hadm hT h1 h30 hwt hmemo hsess]
  · rw [processMsg_admitted dp now s u usr data hadm, hT]
    have h31 : ¬ T = 31 := by omega
    have h0 : ¬ T = 0 := by omega
    have hc : qhContains usr.qmTargets T = true := by
      unfold qhContains; rw [hwt]; rfl
    rw [if_neg h31, if_neg h0, if_pos hc]
    unfold whisper
    have hm2 : qhValue (afterFrame now usr data).qmTargetCache T =
        some (whisperChannels dp s u wt, whisperDirect s wt (whisperChannels dp s u wt)) :=
      hmemo
    simp only [hm2]
    rw [whisperSend_spec, whisperSend_spec, deliver_setUser_fun, deliver_setUser_fun]

/-- C4, amended. An admitted sender `u` sends a packet of at most 508 bytes with a
whisper target `T` in 1..30 that is defined (`wt`); the target has no memoized entry, or
the entry is the pair of sets that lines 561-604 compute in the current state. The
direct set is the users that `qhUsers` holds for the explicit session ids, minus the
channel set; the two sets are disjoint; and every user `R` of their union that is
neither deafened nor the sender is sent exactly one packet, whose first byte is 1 when
`R` is in the channel set and 2 when it is only in the direct set. -/
theorem C4_whisper_direct_disjoint_once_amended (dp : Deps) (now : Nat) (s : Server) (u : Ptr)
    (usr : ServerUser) (data : List Nat) (T : Nat) (wt : WhisperTarget)
    (hadm : Admitted now s u usr data)
    (hlen : data.length ≤ 508)
    (henc : (dp.encode usr.uiSession).length ≤ 4)
    (hposlen : dp.posLen data.tail ≤ data.tail.length)
    (hT : data.headD 0 % 32 = T) (h1 : 1 ≤ T) (h30 : T ≤ 30)
    (hwt : qhValue usr.qmTargets T = some wt)
    (hmemo : qhValue usr.qmTargetCache T = none ∨
      qhValue usr.qmTargetCache T =
        some (whisperChannels dp s u wt, whisperDirect s wt (whisperChannels dp s u wt)))
    (hsess : qhContains s.qhUsers usr.uiSession = true) :
    (∀ p, p ∈ whisperDirect s wt (whisperChannels dp s u wt) ↔
      (∃ id ∈ wt.qlSessions, qhValue s.qhUsers id = some p) ∧
        p ∉ whisperChannels dp s u wt) ∧
    (∀ p, ¬ (p ∈ whisperChannels dp s u wt ∧
      p ∈ whisperDirect s wt (whisperChannels dp s u wt))) ∧
    (∀ R d, s.user R = some d → d.bDeaf = false → d.bSelfDeaf = false → R ≠ u →
      (R ∈ whisperChannels dp s u wt ∨
        R ∈ whisperDirect s wt (whisperChannels dp s u wt)) →
      ∃ e, (processMsg dp now s u data).2.filter (fun e => decide (e.dst? = some R)) = [e] ∧
        e.bytes.head? = some (if R ∈ whisperChannels dp s u wt then 1 else 2)) := by
  have hdir := mem_whisperDirect s wt (whisperChannels dp s u wt)
  have hdisj : ∀ p, ¬ (p ∈ whisperChannels dp s u wt ∧
      p ∈ whisperDirect s wt (whisperChannels dp s u wt)) := by
    rintro p ⟨h1, h2⟩
    exact ((hdir p).mp h2).2 h1
  refine ⟨hdir, hdisj, ?_⟩
  intro R d hR hdeaf hsdeaf hRu hin
  have hfit : (dp.encode usr.uiSession).length + data.tail.length ≤ 511 := by
    have : data.tail.length ≤ 507 := by
      rw [List.length_tail]; omega
    omega
  have hout : dp.posLen data.tail ≤ (dp.encode usr.uiSession ++ data.tail).length := by
    rw [List.length_append]; omega
  rw [processMsg_whisper_events dp now s u usr data T wt hadm hT h1 h30 hwt hmemo hsess]
  rw [whisperSend_spec, List.filter_append,
    filter_flatMap_deliver _ _ _ _ _ _ _ (nodup_whisperChannels dp s u wt),
    filter_flatMap_deliver _ _ _ _ _ _ _ (nodup_whisperDirect s wt _),
    pdsWrite_fits dp 511 _ _ hfit]
  by_cases hch : R ∈ whisperChannels dp s u wt
  · have hnd : R ∉ whisperDirect s wt (whisperChannels dp s u wt) :=
      fun h => hdisj R ⟨hch, h⟩
    rw [if_pos hch, if_neg hnd, if_pos hch, List.append_nil,
      deliver_eligible s u _ _ _ R d hR hdeaf hsdeaf hRu]
    exact ⟨_, rfl, by rw [sendMessage_bytes]; exact packetFor_head _ _ _ _ _ hout⟩
  · have hd : R ∈ whisperDirect s wt (whisperChannels dp s u wt) := by
      rcases hin with h | h
      · exact absurd h hch
      · exact h
    rw [if_neg hch, if_pos hd, if_neg hch, List.nil_append,
      deliver_eligible s u _ _ _ R d hR hdeaf hsdeaf hRu]
    exact ⟨_, rfl, by rw [sendMessage_bytes]; exact packetFor_head _ _ _ _ _ hout⟩

/-- C4 amended, at the scenario "direct-session whisper deduplicated against the channel
set": target 7 of A names channel 1 and the sessions of D and B. D, in channel 1, is
sent one packet with first byte 1; so the request at D holds with the channel branch. -/
theorem C4_whisper_direct_disjoint_once_amended_witness :
    ∃ e, (processMsg exDeps 1000000 exServer 0 [39, 1, 2, 3]).2.filter
        (fun e => decide (e.dst? = some 2)) = [e] ∧
      e.bytes.head? = some (if 2 ∈ whisperChannels exDeps exServer 0
        { qlChannels := [{ iId := 1, bChildren := false, bLinks := false, qsGroup := "" }],
          qlSessions := [3, 2] } then 1 else 2) :=
  (C4_whisper_direct_disjoint_once_amended exDeps 1000000 exServer 0 exA [39, 1, 2, 3] 7 _
    (by decide) (by decide) (by decide) (by decide) rfl (by decide) (by decide) rfl
    (Or.inl rfl) rfl).2.2 2 exD rfl rfl rfl (by decide) (Or.inl (by decide))

/-- C4, as the claim states it, fails on a memoized entry that is out of date. Target 11
of A names session 6. A whispers while nobody has session 6: the pair of two empty sets
is memoized. A client then connects and gets session 6 (pointer 5, not deafened);
`newClient` leaves the memoized entry as it is. For A's next packet with target 11 the
user found in `qhUsers` for the listed session id is pointer 5, not in the (empty)
channel set, yet lines 556-559 take the memoized empty sets and no packet is sent. -/
theorem C4_whisper_stale_memo_counterexample :
    (exStaleServer.user 0).map (fun u => qhValue u.qmTargets 11) =
        some (some { qlChannels := [], qlSessions := [6] }) ∧
      qhValue exStaleServer.qhUsers 6 = some 5 ∧
      (exStaleServer.user 5).map (fun u => (u.bDeaf, u.bSelfDeaf)) = some (false, false) ∧
      whisperChannels exDeps exStaleServer 0 { qlChannels := [], qlSessions := [6] } = [] ∧
      whisperDirect exStaleServer { qlChannels := [], qlSessions := [6] } [] = [5] ∧
      (exStaleServer.user 0).map (fun u => qhValue u.qmTargetCache 11) =
        some (some ([], [])) ∧
      (exStaleServer.user 0).map
        (fun u => decide (Admitted 2000000 exStaleServer 0 u [32 + 11, 1, 2, 3])) = some true ∧
      (processMsg exDeps 2000000 exStaleServer 0 [32 + 11, 1, 2, 3]).2 = [] ∧
      ¬ ∃ e ∈ (processMsg exDeps 2000000 exStaleServer 0 [32 + 11, 1, 2, 3]).2,
        e.dst? = some 5 :=
  ⟨by decide, by decide, by decide, by decide, by decide, by decide, by decide, by decide,
    by decide⟩

/-! ## C5: loopback -/

/-- C5, as the claim states it, fails: A sends `0xAA` with first byte `(3 << 5) | 31`;
the one packet produced, addressed to A, starts with the byte 31 (type bits cleared), so
no packet `[(3 << 5) | 31][varint A.session][0xAA]` is sent. -/
theorem C5_loopback_counterexample :
    Admitted 1000000 exServer 0 exA [3 * 32 + 31, 170] ∧
      (processMsg exDeps 1000000 exServer 0 [3 * 32 + 31, 170]).2 =
        [Event.tcpTransmit 0 1 [31, 1, 170]] ∧
      ¬ ∃ e ∈ (processMsg exDeps 1000000 exServer 0 [3 * 32 + 31, 170]).2,
        e.bytes = (3 * 32 + 31) :: (exDeps.encode exA.uiSession ++ [170]) := by
  decide

/-- C5, amended. Loopback: an admitted sender `u` sends a packet of at most 508 bytes
with target 31. Exactly one packet is produced, addressed to `u`, and it is the byte 31
(the target alone, type bits cleared), then the varint of the sender's session, then the
bytes of `data` after the first. -/
theorem C5_loopback_amended (dp : Deps) (now : Nat) (s : Server) (u : Ptr)
    (usr : ServerUser) (data : List Nat)
    (hadm : Admitted now s u usr data)
    (hlen : data.length ≤ 508)
    (henc : (dp.encode usr.uiSession).length ≤ 4)
    (htarget : data.headD 0 % 32 = 31) :
    ∃ e, (processMsg dp now s u data).2 = [e] ∧ e.dst? = some u ∧
      e.bytes = 31 :: (dp.encode usr.uiSession ++ data.tail) := by
  have hfit : (dp.encode usr.uiSession).length + data.tail.length ≤ 511 := by
    have : data.tail.length ≤ 507 := by
      rw [List.length_tail]; omega
    omega
  rw [processMsg_admitted dp now s u usr data hadm, if_pos htarget, htarget,
    pdsWrite_fits dp 511 _ _ hfit]
  exact ⟨_, rfl, sendMessage_dst _ _ _ _ _, sendMessage_bytes _ _ _ _⟩

/-- C5 amended, at the scenario "loopback": the packet A gets back starts with 31. -/
theorem C5_loopback_amended_witness :
    ∃ e, (processMsg exDeps 1000000 exServer 0 [3 * 32 + 31, 170]).2 = [e] ∧
      e.dst? = some 0 ∧ e.bytes = 31 :: (exDeps.encode exA.uiSession ++ [170]) :=
  C5_loopback_amended exDeps 1000000 exServer 0 exA [3 * 32 + 31, 170] (by decide)
    (by decide) (by decide) (by decide)

/-! ## C6: whisper to a channel with its links -/

theorem portFrame_refl (s : Server) : PortFrame s s :=
  ⟨rfl, rfl, fun _ a h => ⟨a, h, rfl⟩⟩

theorem portFrame_trans (s r t : Server) (h1 : PortFrame s r) (h2 : PortFrame r t) :
    PortFrame s t := by
  refine ⟨h2.1.trans h1.1, h2.2.1.trans h1.2.1, ?_⟩
  intro p a ha
  obtain ⟨a1, hr, hp1⟩ := h1.2.2 p a ha
  obtain ⟨a2, ht, hp2⟩ := h2.2.2 p a1 hr
  exact ⟨a2, ht, hp2.trans hp1⟩

theorem portFrame_setUser (s : Server) (u : Ptr) (a x : ServerUser) (hu : s.user u = some a)
    (hx : x.sinPort = a.sinPort) : PortFrame s (s.setUser u x) := by
  refine ⟨rfl, rfl, ?_⟩
  intro p b hb
  by_cases hp : p = u
  · subst hp
    rw [hu] at hb
    cases hb
    exact ⟨x, user_setUser_self s p x a hu, hx⟩
  · exact ⟨b, by rw [user_setUser_ne s u p x hp]; exact hb, rfl⟩

theorem portFrame_whisper (dp : Deps) (s : Server) (u : Ptr) (usr : ServerUser) (target : Nat)
    (out : List Nat) (poslen : Nat) (hu : s.user u = some usr) :
    PortFrame s (whisper dp s u usr target out poslen).1 := by
  unfold whisper
  split
  · exact portFrame_refl s
  · simp only
    split
    · exact portFrame_setUser s u usr _ hu rfl
    · exact portFrame_refl s

theorem portFrame_processMsg (dp : Deps) (now : Nat) (s : Server) (u : Ptr) (data : List Nat) :
    PortFrame s (processMsg dp now s u data).1 := by
  unfold processMsg
  split
  · exact portFrame_refl s
  · rename_i usr0 hu
    split
    · exact portFrame_refl s
    · have hf : PortFrame s (s.setUser u
          { usr0 with bwr := usr0.bwr.addFrame now (20 + 8 + 4 + data.length) }) :=
        portFrame_setUser s u usr0 _ hu rfl
      simp only
      split
      · exact hf
      · split
        · exact hf
        · split
          · exact hf
          · split
            · exact portFrame_trans _ _ _ hf
                (portFrame_whisper dp _ u _ _ _ _ (user_setUser_self s u _ usr0 hu))
            · exact hf

theorem portFrame_dispatch (dp : Deps) (now : Nat) (s : Server) (u : Ptr) (buffer : List Nat) :
    PortFrame s (dispatch dp now s u buffer).1 := by
  unfold dispatch
  simp only
  split
  · exact portFrame_refl s
  · rename_i usr hu
    split
    · exact portFrame_refl s
    · split
      · exact portFrame_trans _ _ _
          (portFrame_setUser s u usr { usr with bUdp := true } hu rfl)
          (portFrame_processMsg dp now _ u buffer)
      · exact portFrame_refl s

theorem checkDecrypt_ok (dp : Deps) (now : Nat) (s : Server) (p : Ptr) (a : ServerUser)
    (enc plain : List Nat) (ha : s.user p = some a) (hv : a.csCrypt.valid = true)
    (hd : dp.decrypt p enc = some plain) :
    checkDecrypt dp now s p enc = (s, some plain, []) := by
  unfold checkDecrypt
  simp only [ha, hv, if_true, hd]

theorem checkDecrypt_fail (dp : Deps) (now : Nat) (s : Server) (q : Ptr) (enc : List Nat)
    (hd : dp.decrypt q enc = none) :
    (checkDecrypt dp now s q enc).2.1 = none ∧
      (checkDecrypt dp now s q enc).1.qhPeerUsers = s.qhPeerUsers ∧
      (checkDecrypt dp now s q enc).1.qhHostUsers = s.qhHostUsers ∧
      (checkDecrypt dp now s q enc).1.qhUsers = s.qhUsers ∧
      (∀ p, p ≠ q → (checkDecrypt dp now s q enc).1.user p = s.user p) ∧
      ∀ e ∈ (checkDecrypt dp now s q enc).2.2, ∃ n, e = Event.reqSync n := by
  unfold checkDecrypt
  cases hq : s.user q with
  | none => simp
  | some b =>
    have hnone : (if b.csCrypt.valid = true then dp.decrypt q enc else none) = none := by
      split
      · exact hd
      · rfl
    simp only [hnone]
    split
    · split
      · refine ⟨rfl, rfl, rfl, rfl, ?_, ?_⟩
        · intro p hp
          exact user_setUser_ne s q p _ hp
        · intro e he
          exact ⟨b.uiSession, List.mem_singleton.mp he⟩
      · simp
    · simp

theorem learnPeer_peer (s : Server) (h p2 : Nat) (A : Ptr) (a : ServerUser) :
    qhValue (learnPeer s h p2 A a).qhPeerUsers (peerKey h p2) = some A :=
  qhValue_qhInsert_self _ _ _

theorem learnPeer_host (s : Server) (h p2 : Nat) (A : Ptr) (a : ServerUser) :
    A ∉ (qhValue (learnPeer s h p2 A a).qhHostUsers h).getD [] := by
  show A ∉ (qhValue (hostRemove s.qhHostUsers h A) h).getD []
  unfold hostRemove
  rw [qhValue_qhInsert_self]
  simp

theorem learnPeer_user (s : Server) (h p2 : Nat) (A : Ptr) (a : ServerUser)
    (hA : s.user A = some a) :
    (learnPeer s h p2 A a).user A = some { a with sinPort := p2 } := by
  unfold learnPeer
  exact user_setUser_self _ A _ a hA

/-- C7, as the claim states it, fails. A (pointer 0, valid CryptState) is known at
(10, 4000): `qhPeerUsers` maps that address to A and, as line 406 removed it, A is not
among the users of host 10. A datagram of 6 bytes that A's CryptState decrypts arrives
from (10, 5000), for which `qhPeerUsers` has no entry. The loop drops it: the server is
unchanged, nothing is sent, and `qhPeerUsers` still has no entry for (10, 5000). -/
theorem C7_address_migration_counterexample :
    qhValue exPeerServer.qhPeerUsers (peerKey 10 4000) = some 0 ∧
      (exPeerServer.user 0).map (fun a => (a.csCrypt.valid, a.sinPort)) = some (true, 4000) ∧
      exDeps.decrypt 0 [0, 0, 0, 0, 64, 9] = some [64, 9] ∧
      qhValue exPeerServer.qhPeerUsers (peerKey 10 5000) = none ∧
      qhValue exPeerServer.qhHostUsers 10 = some [1, 2, 3, 4] ∧
      runStep exDeps 2000000 exPeerServer (Recv.datagram 10 5000 [0, 0, 0, 0, 64, 9]) =
        (exPeerServer, [], true) ∧
      ¬ qhValue (runStep exDeps 2000000 exPeerServer
          (Recv.datagram 10 5000 [0, 0, 0, 0, 64, 9])).1.qhPeerUsers (peerKey 10 5000) =
        some 0 :=
  ⟨by decide, by decide, by decide, by decide, by decide, rfl, by decide⟩

theorem checkDecrypt_portFrame (dp : Deps) (now : Nat) (s : Server) (q : Ptr) (enc : List Nat) :
    PortFrame s (checkDecrypt dp now s q enc).1 ∧
      (checkDecrypt dp now s q enc).1.qhUsers = s.qhUsers := by
  unfold checkDecrypt
  cases hq : s.user q with
  | none => exact ⟨portFrame_refl s, rfl⟩
  | some b =>
    simp only
    split
    · exact ⟨portFrame_refl s, rfl⟩
    · split
      · split
        · exact ⟨portFrame_setUser s q b _ hq rfl, rfl⟩
        · exact ⟨portFrame_refl s, rfl⟩
      · exact ⟨portFrame_refl s, rfl⟩

theorem probeHost_none (dp : Deps) (now h p2 : Nat) (enc : List Nat) (l : List Ptr) :
    ∀ s : Server, (∀ q ∈ l, dp.decrypt q enc = none) →
      (probeHost dp now h p2 enc s l).2.1 = none ∧
      PortFrame s (probeHost dp now h p2 enc s l).1 ∧
      (probeHost dp now h p2 enc s l).1.qhUsers = s.qhUsers ∧
      (∀ p, p ∉ l → (probeHost dp now h p2 enc s l).1.user p = s.user p) ∧
      ∀ e ∈ (probeHost dp now h p2 enc s l).2.2, ∃ n, e = Event.reqSync n := by
  induction l with
  | nil =>
    intro s _
    exact ⟨rfl, portFrame_refl s, rfl, fun _ _ => rfl, by simp [probeHost]⟩
  | cons q qs ih =>
    intro s hl
    have hq := hl q (List.mem_cons_self _ _)
    have hrest : ∀ r ∈ qs, dp.decrypt r enc = none :=
      fun r hr => hl r (List.mem_cons_of_mem _ hr)
    have hnot : ∀ p, p ∉ q :: qs → p ≠ q ∧ p ∉ qs := by
      intro p hp
      exact ⟨fun e => hp (e ▸ List.mem_cons_self _ _), fun e => hp (List.mem_cons_of_mem _ e)⟩
    simp only [probeHost]
    cases hsq : s.user q with
    | none =>
      obtain ⟨i1, i2, i3, i4, i5⟩ := ih s hrest
      exact ⟨i1, i2, i3, fun p hp => i4 p (hnot p hp).2, i5⟩
    | some b =>
      simp only
      cases hbv : b.csCrypt.valid with
      | false =>
        simp only [Bool.false_eq_true, if_false]
        obtain ⟨i1, i2, i3, i4, i5⟩ := ih s hrest
        exact ⟨i1, i2, i3, fun p hp => i4 p (hnot p hp).2, i5⟩
      | true =>
        simp only [if_true]
        obtain ⟨h1, _, _, _, h5, h6⟩ := checkDecrypt_fail dp now s q enc hq
        obtain ⟨hpf, hqu⟩ := checkDecrypt_portFrame dp now s q enc
        simp only [h1]
        obtain ⟨i1, i2, i3, i4, i5⟩ := ih (checkDecrypt dp now s q enc).1 hrest
        refine ⟨i1, portFrame_trans _ _ _ hpf i2, i3.trans hqu, ?_, ?_⟩
        · intro p hp
          rw [i4 p (hnot p hp).2, h5 p (hnot p hp).1]
        · intro e he
          rcases List.mem_append.mp he with he | he
          · exact h6 e he
          · exact i5 e he

theorem probeHost_append (dp : Deps) (now h p2 : Nat) (enc : List Nat) (rest : List Ptr)
    (pre : List Ptr) :
    ∀ s : Server, (∀ q ∈ pre, dp.decrypt q enc = none) →
      probeHost dp now h p2 enc s (pre ++ rest) =
        ((probeHost dp now h p2 enc (probeHost dp now h p2 enc s pre).1 rest).1,
          (probeHost dp now h p2 enc (probeHost dp now h p2 enc s pre).1 rest).2.1,
          (probeHost dp now h p2 enc s pre).2.2 ++
            (probeHost dp now h p2 enc (probeHost dp now h p2 enc s pre).1 rest).2.2) := by
  induction pre with
  | nil =>
    intro s _
    simp [probeHost]
  | cons q qs ih =>
    intro s hl
    have hq := hl q (List.mem_cons_self _ _)
    have hrest : ∀ r ∈ qs, dp.decrypt r enc = none :=
      fun r hr => hl r (List.mem_cons_of_mem _ hr)
    simp only [List.cons_append, probeHost]
    cases hsq : s.user q with
    | none => exact ih s hrest
    | some b =>
      simp only
      cases hbv : b.csCrypt.valid with
      | false =>
        simp only [Bool.false_eq_true, if_false]
        exact ih s hrest
      | true =>
        simp only [if_true]
        have h1 := (checkDecrypt_fail dp now s q enc hq).1
        simp only [h1]
        have e1 : probeHost dp now h p2 enc (checkDecrypt dp now s q enc).1 (qs.append rest) = _ :=
          ih (checkDecrypt dp now s q enc).1 hrest
        rw [e1]
        simp only [List.append_assoc]

theorem probeHost_head (dp : Deps) (now h p2 : Nat) (enc plain : List Nat) (A : Ptr)
    (a : ServerUser) (post : List Ptr) (s : Server) (hA : s.user A = some a)
    (hv : a.csCrypt.valid = true) (hd : dp.decrypt A enc = some plain)
    (hsess : qhContains s.qhUsers a.uiSession = true) :
    probeHost dp now h p2 enc s (A :: post) = (learnPeer s h p2 A a, some (A, plain), []) := by
  simp only [probeHost, hA, hv, if_true, checkDecrypt_ok dp now s A a enc plain hA hv hd, hsess]
  rfl

theorem runStep_probe_none (dp : Deps) (now : Nat) (s : Server) (h p2 : Nat) (bytes : List Nat)
    (hlen5 : 5 ≤ bytes.length) (hlen512 : bytes.length ≤ 512)
    (hpeer : qhValue s.qhPeerUsers (peerKey h p2) = none)
    (hnone : ∀ q ∈ (qhValue s.qhHostUsers h).getD [], dp.decrypt q bytes = none) :
    (runStep dp now s (Recv.datagram h p2 bytes)).2.2 = true ∧
      PortFrame s (runStep dp now s (Recv.datagram h p2 bytes)).1 ∧
      (runStep dp now s (Recv.datagram h p2 bytes)).1.qhUsers = s.qhUsers ∧
      ∀ e ∈ (runStep dp now s (Recv.datagram h p2 bytes)).2.1, ∃ n, e = Event.reqSync n := by
  obtain ⟨i1, i2, i3, _, i5⟩ :=
    probeHost_none dp now h p2 bytes ((qhValue s.qhHostUsers h).getD []) s hnone
  have h0 : ¬ bytes.length = 0 := by omega
  have h5 : ¬ bytes.length < 5 := by omega
  have h512 : ¬ bytes.length > 512 := by omega
  have hrun : runStep dp now s (Recv.datagram h p2 bytes) =
      ((probeHost dp now h p2 bytes s ((qhValue s.qhHostUsers h).getD [])).1,
        (probeHost dp now h p2 bytes s ((qhValue s.qhHostUsers h).getD [])).2.2, true) := by
    unfold runStep
    simp only [h0, h5, h512, if_false, hpeer, i1]
  rw [hrun]
  exact ⟨rfl, i2, i3, i5⟩

/-- C7, amended. A datagram of 5 to 512 bytes arrives from `(h, p2)`, for which
`qhPeerUsers` has no entry.
Learning: user `A`, record `a`, has a valid CryptState, is in `qhUsers` and among the
users `pre ++ A :: post` of host `h`; `A` decrypts the datagram to `plain` and no user
before `A` does. The tries before `A` emit nothing but resync requests and leave a
server with the indices and ports of `s` and the record of `A`; on it the loop maps
`(h, p2)` to `A`, removes `A` from the users of host `h` and sets the port of `A` to
`p2` (`learnPeer`). The packet is then dispatched as the packet of `A`: a ping is echoed
to `A` at port `p2` over UDP (through the tunnel when `p2` is 0); a voice packet sets
`bUdp` and is routed by `processMsg` with `A` as the sender; any other type is ignored.
In each case, after the turn `qhPeerUsers` maps `(h, p2)` to `A`, `A` is not among the
users of host `h`, and the port of `A` is `p2`.
Drop: when no user of host `h` decrypts the datagram, the turn changes neither
`qhPeerUsers`, `qhHostUsers`, `qhUsers` nor the port of any user, emits nothing but
resync requests, and the loop continues. This is so for a datagram that only `A`
decrypts once `A` is no longer among the users of host `h`, as after learning. -/
theorem C7_address_learning_amended (dp : Deps) (now : Nat) (s : Server) (h p2 : Nat)
    (bytes : List Nat) (hlen5 : 5 ≤ bytes.length) (hlen512 : bytes.length ≤ 512)
    (hpeer : qhValue s.qhPeerUsers (peerKey h p2) = none) :
    (∀ (plain : List Nat) (A : Ptr) (a : ServerUser) (pre post : List Ptr),
      s.user A = some a → a.csCrypt.valid = true → dp.decrypt A bytes = some plain →
      qhContains s.qhUsers a.uiSession = true →
      qhValue s.qhHostUsers h = some (pre ++ A :: post) →
      (∀ q ∈ pre, q ≠ A ∧ dp.decrypt q bytes = none) →
      PortFrame s (probeHost dp now h p2 bytes s pre).1 ∧
      (probeHost dp now h p2 bytes s pre).1.user A = some a ∧
      (∀ e ∈ (probeHost dp now h p2 bytes s pre).2.2, ∃ n, e = Event.reqSync n) ∧
      ((plain.headD 0 / 32) % 8 = dp.UDPPing →
        runStep dp now s (Recv.datagram h p2 bytes) =
          (learnPeer (probeHost dp now h p2 bytes s pre).1 h p2 A a,
            (probeHost dp now h p2 bytes s pre).2.2 ++
              [if p2 = 0 then Event.tcpTransmit A a.uiSession plain
                else Event.sendto A p2 plain],
            true)) ∧
      (¬ (plain.headD 0 / 32) % 8 = dp.UDPPing → (plain.headD 0 / 32) % 8 = dp.UDPVoice →
        runStep dp now s (Recv.datagram h p2 bytes) =
          ((processMsg dp now
              ((learnPeer (probeHost dp now h p2 bytes s pre).1 h p2 A a).setUser A
                { a with sinPort := p2, bUdp := true }) A plain).1,
            (probeHost dp now h p2 bytes s pre).2.2 ++
              (processMsg dp now
                ((learnPeer (probeHost dp now h p2 bytes s pre).1 h p2 A a).setUser A
                  { a with sinPort := p2, bUdp := true }) A plain).2,
            true)) ∧
      (¬ (plain.headD 0 / 32) % 8 = dp.UDPPing → ¬ (plain.headD 0 / 32) % 8 = dp.UDPVoice →
        runStep dp now s (Recv.datagram h p2 bytes) =
          (learnPeer (probeHost dp now h p2 bytes s pre).1 h p2 A a,
            (probeHost dp now h p2 bytes s pre).2.2, true)) ∧
      qhValue (runStep dp now s (Recv.datagram h p2 bytes)).1.qhPeerUsers (peerKey h p2) =
        some A ∧
      A ∉ (qhValue (runStep dp now s (Recv.datagram h p2 bytes)).1.qhHostUsers h).getD [] ∧
      ∃ a1, (runStep dp now s (Recv.datagram h p2 bytes)).1.user A = some a1 ∧
        a1.sinPort = p2) ∧
    ((∀ q ∈ (qhValue s.qhHostUsers h).getD [], dp.decrypt q bytes = none) →
      (runStep dp now s (Recv.datagram h p2 bytes)).2.2 = true ∧
      PortFrame s (runStep dp now s (Recv.datagram h p2 bytes)).1 ∧
      (runStep dp now s (Recv.datagram h p2 bytes)).1.qhUsers = s.qhUsers ∧
      ∀ e ∈ (runStep dp now s (Recv.datagram h p2 bytes)).2.1, ∃ n, e = Event.reqSync n) ∧
    (∀ A : Ptr, A ∉ (qhValue s.qhHostUsers h).getD [] →
      (∀ q, q ≠ A → dp.decrypt q bytes = none) →
      (runStep dp now s (Recv.datagram h p2 bytes)).2.2 = true ∧
      PortFrame s (runStep dp now s (Recv.datagram h p2 bytes)).1 ∧
      (runStep dp now s (Recv.datagram h p2 bytes)).1.qhUsers = s.qhUsers ∧
      ∀ e ∈ (runStep dp now s (Recv.datagram h p2 bytes)).2.1, ∃ n, e = Event.reqSync n) := by
  refine ⟨?_, runStep_probe_none dp now s h p2 bytes hlen5 hlen512 hpeer, ?_⟩
  · intro plain A a pre post hA hvalid hdec hsess hhost hpre
    obtain ⟨_, i2, i3, i4, i5⟩ :=
      probeHost_none dp now h p2 bytes pre s (fun q hq => (hpre q hq).2)
    have hA0 : (probeHost dp now h p2 bytes s pre).1.user A = some a := by
      rw [i4 A (fun hin => (hpre A hin).1 rfl)]
      exact hA
    have hsess0 :
        qhContains (probeHost dp now h p2 bytes s pre).1.qhUsers a.uiSession = true := by
      rw [i3]
      exact hsess
    have hprobe : probeHost dp now h p2 bytes s (pre ++ A :: post) =
        (learnPeer (probeHost dp now h p2 bytes s pre).1 h p2 A a, some (A, plain),
          (probeHost dp now h p2 bytes s pre).2.2) := by
      rw [probeHost_append dp now h p2 bytes (A :: post) pre s (fun q hq => (hpre q hq).2),
        probeHost_head dp now h p2 bytes plain A a post _ hA0 hvalid hdec hsess0]
      simp only [List.append_nil]
    have hu := learnPeer_user (probeHost dp now h p2 bytes s pre).1 h p2 A a hA0
    have hrun : runStep dp now s (Recv.datagram h p2 bytes) =
        ((dispatch dp now (learnPeer (probeHost dp now h p2 bytes s pre).1 h p2 A a) A plain).1,
          (probeHost dp now h p2 bytes s pre).2.2 ++
            (dispatch dp now (learnPeer (probeHost dp now h p2 bytes s pre).1 h p2 A a)
              A plain).2,
          true) := by
      unfold runStep
      have h0 : ¬ bytes.length = 0 := by omega
      have h5 : ¬ bytes.length < 5 := by omega
      have h512 : ¬ bytes.length > 512 := by omega
      simp only [h0, h5, h512, if_false, hpeer, hhost, Option.getD_some, hprobe]
    have hf := portFrame_dispatch dp now
      (learnPeer (probeHost dp now h p2 bytes s pre).1 h p2 A a) A plain
    refine ⟨i2, hA0, i5, ?_, ?_, ?_, ?_, ?_, ?_⟩
    · intro hping
      rw [hrun]
      unfold dispatch
      simp only [hu, hping, if_true]
      unfold sendMessage
      by_cases hp0 : p2 = 0
      · subst hp0
        simp
      · simp [hp0, hvalid]
    · intro hnping hvoice
      rw [hrun]
      unfold dispatch
      simp only [hu]
      rw [if_neg hnping, if_pos hvoice]
    · intro hnping hnvoice
      rw [hrun]
      unfold dispatch
      simp only [hu]
      rw [if_neg hnping, if_neg hnvoice, List.append_nil]
    · rw [hrun]
      show qhValue (dispatch dp now _ A plain).1.qhPeerUsers _ = _
      rw [hf.1]
      exact learnPeer_peer _ h p2 A a
    · rw [hrun]
      show A ∉ (qhValue (dispatch dp now _ A plain).1.qhHostUsers h).getD []
      rw [hf.2.1]
      exact learnPeer_host _ h p2 A a
    · rw [hrun]
      obtain ⟨a1, h1, h2⟩ := hf.2.2 A _ hu
      exact ⟨a1, h1, h2⟩
  · intro A hnot honly
    exact runStep_probe_none dp now s h p2 bytes hlen5 hlen512 hpeer
      (fun q hq => honly q (fun e => hnot (e ▸ hq)))

/-- C7 amended, at the scenario server. A, not yet known by address, sends a ping from
(10, 4000): the address is learned and the ping is echoed to port 4000. Had the datagram
held a voice packet, it would have been routed as A's speech to D, in A's channel, and to
B, in the linked channel. On the server the ping leaves, a datagram from (10, 5000) that
only A decrypts is dropped. -/
theorem C7_address_learning_amended_witness :
    (runStep exDeps 1000000 exServer (Recv.datagram 10 4000 [0, 0, 0, 0, 64, 9]) =
        (learnPeer exServer 10 4000 0 exA, [Event.sendto 0 4000 [64, 9]], true) ∧
      qhValue (runStep exDeps 1000000 exServer
          (Recv.datagram 10 4000 [0, 0, 0, 0, 64, 9])).1.qhPeerUsers (peerKey 10 4000) =
        some 0 ∧
      0 ∉ (qhValue (runStep exDeps 1000000 exServer
          (Recv.datagram 10 4000 [0, 0, 0, 0, 64, 9])).1.qhHostUsers 10).getD []) ∧
    (runStep exDeps 1000000 exServer (Recv.datagram 10 4000 [0, 0, 0, 0, 32, 1, 2, 3])).2.1 =
      [Event.tcpTransmit 2 3 [0, 1, 1, 2, 3], Event.tcpTransmit 1 2 [0, 1, 1, 2, 3]] ∧
    ((runStep exDeps 2000000 exPeerServer (Recv.datagram 10 5000 [0, 0, 0, 0, 64, 9])).2.2 =
        true ∧
      PortFrame exPeerServer
        (runStep exDeps 2000000 exPeerServer (Recv.datagram 10 5000 [0, 0, 0, 0, 64, 9])).1 ∧
      (runStep exDeps 2000000 exPeerServer
        (Recv.datagram 10 5000 [0, 0, 0, 0, 64, 9])).1.qhUsers = exPeerServer.qhUsers ∧
      ∀ e ∈ (runStep exDeps 2000000 exPeerServer
          (Recv.datagram 10 5000 [0, 0, 0, 0, 64, 9])).2.1, ∃ n, e = Event.reqSync n) :=
  ⟨⟨((C7_address_learning_amended exDeps 1000000 exServer 10 4000 [0, 0, 0, 0, 64, 9]
        (by decide) (by decide) rfl).1 [64, 9] 0 exA [] [1, 2, 3, 4] rfl rfl rfl rfl rfl
        (by simp)).2.2.2.1 rfl,
      ((C7_address_learning_amended exDeps 1000000 exServer 10 4000 [0, 0, 0, 0, 64, 9]
        (by decide) (by decide) rfl).1 [64, 9] 0 exA [] [1, 2, 3, 4] rfl rfl rfl rfl rfl
        (by simp)).2.2.2.2.2.2.1,
      ((C7_address_learning_amended exDeps 1000000 exServer 10 4000 [0, 0, 0, 0, 64, 9]
        (by decide) (by decide) rfl).1 [64, 9] 0 exA [] [1, 2, 3, 4] rfl rfl rfl rfl rfl
        (by simp)).2.2.2.2.2.2.2.1⟩,
    (congrArg (fun r => r.2.1)
      (((C7_address_learning_amended exDeps 1000000 exServer 10 4000
        [0, 0, 0, 0, 32, 1, 2, 3] (by decide) (by decide) rfl).1 [32, 1, 2, 3] 0 exA []
        [1, 2, 3, 4] rfl rfl rfl rfl rfl (by simp)).2.2.2.2.1 (by decide) rfl)).trans
      (by decide),
    (C7_address_learning_amended exDeps 2000000 exPeerServer 10 5000 [0, 0, 0, 0, 64, 9]
      (by decide) (by decide) (by decide)).2.2 0 (by decide)
      (fun q hq => by
        show (if [0, 0, 0, 0] = [q, q, q, q] then some [64, 9] else none) = none
        rw [if_neg]
        intro e
        exact hq (List.cons.inj e).1.symm)⟩

/-! ## C8, C9: memoized targets after a disconnect; the transmitter -/

/-- C8, the code at the failing input. X (pointer 4, session 5) is connected and not yet
authenticated; A's whisper target 9 names session 5. A whispers: the direct set holding
X is memoized and the invariant holds. X closes its connection: as X is not
authenticated `connectionClosed` does not clear the target caches (an authenticated
user, D, closing does), X is gone from `qhUsers` but still in A's memoized direct set,
and A's next whisper sends a packet to X. -/
theorem C8_deleted_user_evaluation :
    exX.sState = State.Connected ∧ qhValue exServer.qhUsers 5 = some 4 ∧
      targetCacheLive exServer = true ∧ targetCacheLive exAfterWhisper = true ∧
      (exAfterWhisper.user 0).map ServerUser.qmTargetCache = some [(9, ([], [4]))] ∧
      exAfterClose.qhUsers = [(1, 0), (2, 1), (3, 2), (4, 3)] ∧
      (exAfterClose.user 0).map ServerUser.qmTargetCache = some [(9, ([], [4]))] ∧
      targetCacheLive exAfterClose = false ∧
      (processMsg exDeps 2000000 exAfterClose 0 [32 + 9, 1, 2, 3]).2 =
        [Event.tcpTransmit 4 5 [2, 1, 1, 2, 3]] ∧
      ((connectionClosed exAfterWhisper 2).user 0).map ServerUser.qmTargetCache = some [] :=
  ⟨rfl, rfl, by decide, by decide, by decide, by decide, by decide, by decide, by decide,
    by decide⟩

/-- C9. Transmitter path choice. The cache is the shared cache of one fan-out: empty, or
filled with the bytes of `data` by an earlier call for the same packet. For every
recipient `p` with record `d`, packet `data` and force flag, `sendMessage` encrypts and
sends `data` over UDP exactly when the port of `d` is non-zero, its CryptState is valid
and (`bUdp` or `force`), and then leaves the cache as it is; in every other case nothing
goes over UDP: exactly the bytes of `data`, with the session id of `d`, are queued for
the TLS path, and the cache is filled with them only if it was empty. -/
theorem C9_transmitter_path (p : Ptr) (d : ServerUser) (data cache : List Nat) (force : Bool)
    (hcache : cache = [] ∨ cache = data) :
    ((d.sinPort ≠ 0 ∧ d.csCrypt.valid = true ∧ (d.bUdp = true ∨ force = true)) →
      sendMessage p d data cache force = (Event.sendto p d.sinPort data, cache)) ∧
    (¬ (d.sinPort ≠ 0 ∧ d.csCrypt.valid = true ∧ (d.bUdp = true ∨ force = true)) →
      sendMessage p d data cache force =
        (Event.tcpTransmit p d.uiSession data, if cache = [] then data else cache)) ∧
    ((∃ q port bytes, (sendMessage p d data cache force).1 = Event.sendto q port bytes) ↔
      (d.sinPort ≠ 0 ∧ d.csCrypt.valid = true ∧ (d.bUdp = true ∨ force = true))) := by
  have hiff : ((d.bUdp || force) && (d.sinPort != 0) && d.csCrypt.valid) = true ↔
      (d.sinPort ≠ 0 ∧ d.csCrypt.valid = true ∧ (d.bUdp = true ∨ force = true)) := by
    simp only [Bool.and_eq_true, Bool.or_eq_true, bne_iff_ne, ne_eq]
    tauto
  have hudp : (d.sinPort ≠ 0 ∧ d.csCrypt.valid = true ∧ (d.bUdp = true ∨ force = true)) →
      sendMessage p d data cache force = (Event.sendto p d.sinPort data, cache) := by
    intro h
    unfold sendMessage
    rw [if_pos (hiff.mpr h)]
  have htcp : ¬ (d.sinPort ≠ 0 ∧ d.csCrypt.valid = true ∧ (d.bUdp = true ∨ force = true)) →
      sendMessage p d data cache force =
        (Event.tcpTransmit p d.uiSession data, if cache = [] then data else cache) := by
    intro h
    have hn : ¬ ((d.bUdp || force) && (d.sinPort != 0) && d.csCrypt.valid) = true :=
      fun hc => h (hiff.mp hc)
    unfold sendMessage
    rw [if_neg hn]
    rcases hcache with hc | hc
    · subst hc; rfl
    · subst hc
      cases cache <;> rfl
  refine ⟨hudp, htcp, ?_, ?_⟩
  · rintro ⟨q, port, bytes, he⟩
    by_contra hn
    rw [htcp hn] at he
    cases he
  · intro h
    exact ⟨p, d.sinPort, data, by rw [hudp h]⟩

/-- C9 at B, without a known UDP port, and an empty cache: the plaintext is queued with
B's session id and fills the cache. -/
theorem C9_transmitter_path_witness :
    (([] : List Nat) = [] ∨ [] = [1, 2, 3]) ∧
      sendMessage 1 exB [1, 2, 3] [] false =
        (Event.tcpTransmit 1 2 [1, 2, 3], [1, 2, 3]) :=
  ⟨Or.inl rfl, (C9_transmitter_path 1 exB [1, 2, 3] [] false (Or.inl rfl)).2.1 (by decide)⟩

/-! ## C10: TLS tunnel framing -/

/-- C10. TLS tunnel framing: for a payload `a` of fewer than 2^24 bytes (the constant
`UDPTunnel` fitting a byte), when `id` is a session of `qhUsers`, with connection `c`,
`tcpTransmitData` hands `c` a frame of `a.length + 4` bytes: byte 0 is `UDPTunnel`,
bytes 1 to 3 are the length of `a` as a 24-bit big-endian integer, the remaining bytes
are `a`; reading the length back from bytes 1 to 3 and taking that many bytes after the
header gives `a`. When `id` is not a session of `qhUsers` nothing is sent. -/
theorem C10_tunnel_framing (dp : Deps) (s : Server) (a : List Nat) (id : Nat)
    (hn : a.length < 2 ^ 24) (hT : dp.UDPTunnel < 256) :
    (∀ c, qhValue s.qhUsers id = some c →
      ∃ b1 b2 b3 rest,
        tcpTransmitData dp s a id = some (c, dp.UDPTunnel :: b1 :: b2 :: b3 :: rest) ∧
        (dp.UDPTunnel :: b1 :: b2 :: b3 :: rest).length = a.length + 4 ∧
        b1 < 256 ∧ b2 < 256 ∧ b3 < 256 ∧
        b1 * 2 ^ 16 + b2 * 2 ^ 8 + b3 = a.length ∧
        rest = a ∧
        ((dp.UDPTunnel :: b1 :: b2 :: b3 :: rest).drop 4).take
          (b1 * 2 ^ 16 + b2 * 2 ^ 8 + b3) = a) ∧
    (qhValue s.qhUsers id = none → tcpTransmitData dp s a id = none) := by
  constructor
  · intro c hc
    refine ⟨a.length / 65536 % 256, a.length / 256 % 256, a.length % 256, a, ?_, ?_, ?_, ?_,
      ?_, ?_, rfl, ?_⟩
    · unfold tcpTransmitData
      rw [hc]
      simp only [Nat.mod_eq_of_lt hT]
      rfl
    · simp
    · exact Nat.mod_lt _ (by norm_num)
    · exact Nat.mod_lt _ (by norm_num)
    · exact Nat.mod_lt _ (by norm_num)
    · norm_num at hn ⊢
      omega
    · have : a.length / 65536 % 256 * 2 ^ 16 + a.length / 256 % 256 * 2 ^ 8 + a.length % 256
          = a.length := by
        norm_num at hn ⊢
        omega
      simp only [List.drop_succ_cons, List.drop_zero, this, List.take_length]
  · intro hc
    unfold tcpTransmitData
    rw [hc]

/-- C10 at the scenario server: the frame for the payload `01 02 03` and B's session. -/
theorem C10_tunnel_framing_witness :
    (∀ c, qhValue exServer.qhUsers 2 = some c →
      ∃ b1 b2 b3 rest,
        tcpTransmitData exDeps exServer [1, 2, 3] 2 =
          some (c, exDeps.UDPTunnel :: b1 :: b2 :: b3 :: rest) ∧
        (exDeps.UDPTunnel :: b1 :: b2 :: b3 :: rest).length = [1, 2, 3].length + 4 ∧
        b1 < 256 ∧ b2 < 256 ∧ b3 < 256 ∧
        b1 * 2 ^ 16 + b2 * 2 ^ 8 + b3 = [1, 2, 3].length ∧
        rest = [1, 2, 3] ∧
        ((exDeps.UDPTunnel :: b1 :: b2 :: b3 :: rest).drop 4).take
          (b1 * 2 ^ 16 + b2 * 2 ^ 8 + b3) = [1, 2, 3]) ∧
    (qhValue exServer.qhUsers 2 = none → tcpTransmitData exDeps exServer [1, 2, 3] 2 = none) :=
  C10_tunnel_framing exDeps exServer [1, 2, 3] 2 (by decide) (by decide)

/-! ## C11, C12: runt datagrams; the resync rate limit -/

/-- C11, as the claim states it, fails at length 0: for an empty datagram (0 < 5) the
loop changes nothing and emits nothing, but it is left by `break` (line 375-376), so the
datapath does not continue with the next datagram. -/
theorem C11_runt_counterexample :
    ([] : List Nat).length < 5 ∧
      runStep exDeps 1000000 exServer (Recv.datagram 10 4000 []) = (exServer, [], false) ∧
      ¬ (runStep exDeps 1000000 exServer (Recv.datagram 10 4000 [])).2.2 = true :=
  ⟨by decide, rfl, by decide⟩

/-- C11, amended. For every received datagram of length `n` with `1 ≤ n < 5` or
`n > 512` the turn of the receive loop leaves the server (registries, users, crypt
states) as it is, emits no packet and no resync request, and the loop continues. For
`n = 0` the server is also left as it is and nothing is emitted, but the loop ends. -/
theorem C11_runt_oversize_amended (dp : Deps) (now : Nat) (s : Server) (sinAddr sinPort : Nat)
    (bytes : List Nat) :
    (((1 ≤ bytes.length ∧ bytes.length < 5) ∨ 512 < bytes.length) →
      runStep dp now s (Recv.datagram sinAddr sinPort bytes) = (s, [], true)) ∧
    (bytes.length = 0 →
      runStep dp now s (Recv.datagram sinAddr sinPort bytes) = (s, [], false)) := by
  constructor
  · intro h
    unfold runStep
    have h0 : ¬ bytes.length = 0 := by omega
    simp only [h0, if_false]
    rcases h with ⟨_, h⟩ | h
    · rw [if_pos h]
    · have h5 : ¬ bytes.length < 5 := by omega
      rw [if_neg h5, if_pos h]
  · intro h
    unfold runStep
    simp only [h, if_true]

/-- C11 amended, at a datagram of four bytes on the scenario server. -/
theorem C11_runt_oversize_amended_witness :
    runStep exDeps 1000000 exServer (Recv.datagram 10 4000 [0, 0, 0, 0]) =
      (exServer, [], true) :=
  (C11_runt_oversize_amended exDeps 1000000 exServer 10 4000 [0, 0, 0, 0]).1
    (Or.inl (by decide))

/-- C12, amended. Resync rate limit: `checkDecrypt` fails for the user `p` with record
`u` (the CryptState is not valid, or it does not decrypt the datagram) at time `now`.
The call returns false. A resync request for the session of `u` is emitted if and only
if `now - tLastGood > 5 s` and `now - tLastRequest > 5 s`; in that case `tLastRequest`
becomes `now` and nothing else changes; otherwise the server, both timers included, is
unchanged. When `p` is the known peer of the datagram's source address the turn of the
receive loop then emits nothing but that request and continues: the packet is dropped.
When `p` is tried in the loop over the users of the host, the loop goes on with the
users after `p` on the server the call left. -/
theorem C12_resync_rate_limit_amended (dp : Deps) (now : Nat) (s : Server) (p : Ptr)
    (u : ServerUser) (encrypt : List Nat)
    (hu : s.user p = some u)
    (hfail : u.csCrypt.valid = false ∨ dp.decrypt p encrypt = none) :
    (checkDecrypt dp now s p encrypt).2.1 = none ∧
    ((now - u.csCrypt.tLastGood > 5000000 ∧ now - u.csCrypt.tLastRequest > 5000000) →
      (checkDecrypt dp now s p encrypt).2.2 = [Event.reqSync u.uiSession] ∧
      (checkDecrypt dp now s p encrypt).1 =
        s.setUser p { u with csCrypt := { u.csCrypt with tLastRequest := now } }) ∧
    (¬ (now - u.csCrypt.tLastGood > 5000000 ∧ now - u.csCrypt.tLastRequest > 5000000) →
      (checkDecrypt dp now s p encrypt).2.2 = [] ∧
      (checkDecrypt dp now s p encrypt).1 = s) ∧
    (∀ sinAddr sinPort, 5 ≤ encrypt.length → encrypt.length ≤ 512 →
      qhValue s.qhPeerUsers (peerKey sinAddr sinPort) = some p →
      runStep dp now s (Recv.datagram sinAddr sinPort encrypt) =
        ((checkDecrypt dp now s p encrypt).1, (checkDecrypt dp now s p encrypt).2.2, true)) ∧
    (∀ sinAddr sinPort rest, u.csCrypt.valid = true →
      probeHost dp now sinAddr sinPort encrypt s (p :: rest) =
        ((probeHost dp now sinAddr sinPort encrypt (checkDecrypt dp now s p encrypt).1 rest).1,
          (probeHost dp now sinAddr sinPort encrypt
            (checkDecrypt dp now s p encrypt).1 rest).2.1,
          (checkDecrypt dp now s p encrypt).2.2 ++
            (probeHost dp now sinAddr sinPort encrypt
              (checkDecrypt dp now s p encrypt).1 rest).2.2)) := by
  have hnone : (if u.csCrypt.valid = true then dp.decrypt p encrypt else none) = none := by
    rcases hfail with h | h
    · rw [h]; rfl
    · split
      · exact h
      · rfl
  have hcd : checkDecrypt dp now s p encrypt =
      (if now - u.csCrypt.tLastGood > 5000000 then
        if now - u.csCrypt.tLastRequest > 5000000 then
          (s.setUser p { u with csCrypt := { u.csCrypt with tLastRequest := now } }, none,
            [Event.reqSync u.uiSession])
        else (s, none, [])
      else (s, none, [])) := by
    unfold checkDecrypt
    simp only [hu, hnone]
  have hret : (checkDecrypt dp now s p encrypt).2.1 = none := by
    rw [hcd]
    split
    · split <;> rfl
    · rfl
  refine ⟨hret, ?_, ?_, ?_, ?_⟩
  · rintro ⟨h1, h2⟩
    rw [hcd, if_pos h1, if_pos h2]
    exact ⟨rfl, rfl⟩
  · intro h
    rw [hcd]
    by_cases h1 : now - u.csCrypt.tLastGood > 5000000
    · have h2 : ¬ now - u.csCrypt.tLastRequest > 5000000 := fun h2 => h ⟨h1, h2⟩
      rw [if_pos h1, if_neg h2]
      exact ⟨rfl, rfl⟩
    · rw [if_neg h1]
      exact ⟨rfl, rfl⟩
  · intro sinAddr sinPort h5 h512 hpeer
    unfold runStep
    have h0 : ¬ encrypt.length = 0 := by omega
    have h5b : ¬ encrypt.length < 5 := by omega
    have h512b : ¬ encrypt.length > 512 := by omega
    simp only [h0, h5b, h512b, if_false, hpeer, hret, Option.map_none']
  · intro sinAddr sinPort rest hv
    simp only [probeHost, hu, hv, if_true, hret]

/-- C12 amended, at the scenario server, ten seconds after B's timers were started: a
datagram that B's CryptState does not decrypt yields one resync request for B's
session. -/
theorem C12_resync_rate_limit_amended_witness :
    (checkDecrypt exDeps 10000000 exServer 1 [0, 0, 0, 0, 64, 9]).2.2 =
        [Event.reqSync exB.uiSession] ∧
      (checkDecrypt exDeps 10000000 exServer 1 [0, 0, 0, 0, 64, 9]).1 =
        exServer.setUser 1 { exB with csCrypt := { exB.csCrypt with tLastRequest := 10000000 } } :=
  (C12_resync_rate_limit_amended exDeps 10000000 exServer 1 exB [0, 0, 0, 0, 64, 9] rfl
    (Or.inr (by decide))).2.1 ⟨by decide, by decide⟩

/-- C12, as the claim states it, fails on the probe path. Ten seconds after the timers
were started a datagram arrives from (10, 4000), an address without entry in
`qhPeerUsers`; B's CryptState decrypts it, A's does not. The loop over the users of host
10 tries A first: `checkDecrypt` fails for A, returns false and emits a resync request
for A's session. The packet is not dropped: the loop goes on to B, and the ping is
echoed to B. -/
theorem C12_resync_probe_counterexample :
    qhValue exServer.qhPeerUsers (peerKey 10 4000) = none ∧
      qhValue exServer.qhHostUsers 10 = some [0, 1, 2, 3, 4] ∧
      exDeps.decrypt 0 [1, 1, 1, 1, 64, 9] = none ∧
      (checkDecrypt exDeps 10000000 exServer 0 [1, 1, 1, 1, 64, 9]).2 =
        (none, [Event.reqSync 1]) ∧
      (runStep exDeps 10000000 exServer (Recv.datagram 10 4000 [1, 1, 1, 1, 64, 9])).2 =
        ([Event.reqSync 1, Event.sendto 1 4000 [64, 9]], true) ∧
      ¬ (runStep exDeps 10000000 exServer (Recv.datagram 10 4000 [1, 1, 1, 1, 64, 9])).2.1 =
        [Event.reqSync 1] :=
  ⟨by decide, by decide, by decide, by decide, by decide, by decide⟩

/-! ## C13: session-id accounting -/

theorem qhValue_qhRemove {β : Type} (m : List (Nat × β)) (k k2 : Nat) :
    qhValue (qhRemove m k) k2 = if k2 = k then none else qhValue m k2 := by
  induction m with
  | nil => simp [qhRemove, qhValue]
  | cons e m ih =>
    obtain ⟨a, v⟩ := e
    have hstep : qhRemove ((a, v) :: m) k =
        if a = k then qhRemove m k else (a, v) :: qhRemove m k := by
      unfold qhRemove
      by_cases ha : a = k <;> simp [List.filter_cons, ha]
    rw [hstep]
    by_cases ha : a = k
    · rw [if_pos ha, ih]
      subst ha
      by_cases h2 : k2 = a
      · simp [h2]
      · have : ¬ a = k2 := fun h => h2 h.symm
        simp [h2, qhValue, this]
    · rw [if_neg ha]
      simp only [qhValue, ih]
      by_cases h2 : a = k2
      · subst h2; simp [ha]
      · simp [h2]

theorem qhValue_qhInsert {β : Type} (m : List (Nat × β)) (k k2 : Nat) (v : β) :
    qhValue (qhInsert m k v) k2 = if k2 = k then some v else qhValue m k2 := by
  unfold qhInsert
  simp only [qhValue, qhValue_qhRemove]
  by_cases h : k = k2
  · subst h; simp
  · have : ¬ k2 = k := fun h2 => h h2.symm
    simp [h, this]

theorem clearACLCache_user (s : Server) (x : Option Ptr) (q : Ptr) (u : ServerUser)
    (hq : s.user q = some u) :
    ∃ u1, (clearACLCache s x).user q = some u1 ∧ u1.uiSession = u.uiSession := by
  unfold clearACLCache Server.user at *
  simp only
  generalize s.qhUsers = l
  generalize s.objs = objs at hq
  induction l generalizing objs u with
  | nil => exact ⟨u, hq, rfl⟩
  | cons e l ih =>
    simp only [List.foldl_cons]
    cases he : objs[e.2]? with
    | none => exact ih _ _ hq
    | some w =>
      simp only
      by_cases hqe : e.2 = q
      · have hw : w = u := by
          rw [hqe, hq] at he
          exact (Option.some.inj he).symm
        have hlt : q < objs.length := by
          rcases Nat.lt_or_ge q objs.length with hn | hn
          · exact hn
          · rw [List.getElem?_eq_none hn] at hq
            cases hq
        have hset : (objs.set e.2 { w with qmTargetCache := [] })[q]? =
            some { w with qmTargetCache := [] } := by
          rw [List.getElem?_set, if_pos hqe, if_pos (hqe ▸ hlt)]
        obtain ⟨u1, h1, h2⟩ := ih _ _ hset
        exact ⟨u1, h1, by rw [h2, hw]⟩
      · have hset : (objs.set e.2 { w with qmTargetCache := [] })[q]? = some u := by
          rw [List.getElem?_set, if_neg hqe]
          exact hq
        exact ih _ _ hset

theorem sessionInv_init (channels : List (Nat × Channel)) (bw : Int) :
    SessionInv (Server.new channels bw) := by
  refine ⟨List.nodup_range' 1 4999, ?_, ?_, ?_, ?_⟩
  · intro id hid
    have := List.mem_range'_1.mp hid
    exact ⟨this.1, by omega, rfl⟩
  · intro id h1 h2
    left
    exact List.mem_range'_1.mpr ⟨h1, by omega⟩
  · intro id p h
    cases h
  · intro id p h
    cases h

theorem sessionInv_newClient (s : Server) (base : ServerUser) (adr : Nat) (banned : Bool)
    (h : SessionInv s) : SessionInv (newClient s base adr banned) := by
  unfold newClient
  split
  · exact h
  · split
    · exact h
    · rename_i id rest hq
      obtain ⟨h1, h2, h3, h4, h5⟩ := h
      rw [hq] at h1 h2 h3
      have hid := h2 id (List.mem_cons_self _ _)
      have hnd := List.nodup_cons.mp h1
      refine ⟨hnd.2, ?_, ?_, ?_, ?_⟩
      · intro j hj
        have hj2 := h2 j (List.mem_cons_of_mem _ hj)
        refine ⟨hj2.1, hj2.2.1, ?_⟩
        show qhValue (qhInsert s.qhUsers id s.objs.length) j = none
        rw [qhValue_qhInsert]
        have : ¬ j = id := fun hji => hnd.1 (hji ▸ hj)
        rw [if_neg this]
        exact hj2.2.2
      · intro j hj1 hj2
        show j ∈ rest ∨ ∃ p, qhValue (qhInsert s.qhUsers id s.objs.length) j = some p
        by_cases hji : j = id
        · right
          exact ⟨s.objs.length, by rw [qhValue_qhInsert, if_pos hji]⟩
        · rcases h3 j hj1 hj2 with hm | ⟨p, hp⟩
          · rcases List.mem_cons.mp hm with hm | hm
            · exact absurd hm hji
            · exact Or.inl hm
          · right
            exact ⟨p, by rw [qhValue_qhInsert, if_neg hji]; exact hp⟩
      · intro j p hjp
        have hjp2 : qhValue (qhInsert s.qhUsers id s.objs.length) j = some p := hjp
        rw [qhValue_qhInsert] at hjp2
        show ∃ u, (s.objs ++ [_])[p]? = some u ∧ u.uiSession = j
        by_cases hji : j = id
        · rw [if_pos hji] at hjp2
          have hp : p = s.objs.length := (Option.some.inj hjp2).symm
          subst hp
          refine ⟨{ ServerUser.new base adr with uiSession := id }, ?_, hji.symm⟩
          simp
        · rw [if_neg hji] at hjp2
          obtain ⟨u, hu1, hu2⟩ := h4 j p hjp2
          refine ⟨u, ?_, hu2⟩
          have hlt : p < s.objs.length := by
            rcases Nat.lt_or_ge p s.objs.length with hn | hn
            · exact hn
            · unfold Server.user at hu1
              rw [List.getElem?_eq_none hn] at hu1
              cases hu1
          rw [List.getElem?_append_left hlt]
          exact hu1
      · intro j p hjp
        have hjp2 : qhValue (qhInsert s.qhUsers id s.objs.length) j = some p := hjp
        rw [qhValue_qhInsert] at hjp2
        by_cases hji : j = id
        · rw [hji]; exact ⟨hid.1, hid.2.1⟩
        · rw [if_neg hji] at hjp2
          exact h5 j p hjp2

theorem sessionInv_clearACLCache (s : Server) (x : Option Ptr) (h : SessionInv s) :
    SessionInv (clearACLCache s x) := by
  obtain ⟨h1, h2, h3, h4, h5⟩ := h
  refine ⟨h1, h2, h3, ?_, h5⟩
  intro id p hp
  obtain ⟨u, hu1, hu2⟩ := h4 id p hp
  obtain ⟨u1, hv1, hv2⟩ := clearACLCache_user s x p u hu1
  exact ⟨u1, hv1, hv2.trans hu2⟩

theorem sessionInv_connectionClosed (s : Server) (id : Nat) (p : Ptr) (h : SessionInv s)
    (hlive : qhValue s.qhUsers id = some p) : SessionInv (connectionClosed s p) := by
  obtain ⟨h1, h2, h3, h4, h5⟩ := h
  obtain ⟨u, hu1, hu2⟩ := h4 id p hlive
  have hbound := h5 id p hlive
  have hnotin : id ∉ s.qqIds := by
    intro hin
    have := (h2 id hin).2.2
    rw [hlive] at this
    cases this
  unfold connectionClosed
  simp only [hu1, hu2]
  have hinv : SessionInv
      { s with
        qhUsers := qhRemove s.qhUsers id,
        qhHostUsers := hostRemove s.qhHostUsers u.sinAddr p,
        qhPeerUsers := qhRemove s.qhPeerUsers (peerKey u.sinAddr u.sinPort),
        qhChannels :=
          match u.cChannel with
          | some c => removeUser s.qhChannels c p
          | none => s.qhChannels,
        qqIds := s.qqIds ++ [id] } := by
    refine ⟨?_, ?_, ?_, ?_, ?_⟩
    · show (s.qqIds ++ [id]).Nodup
      rw [List.nodup_append]
      refine ⟨h1, List.nodup_singleton id, ?_⟩
      intro a ha hb
      rw [List.mem_singleton] at hb
      subst hb
      exact hnotin ha
    · intro j hj
      have hj2 : j ∈ s.qqIds ++ [id] := hj
      show 1 ≤ j ∧ j < 5000 ∧ qhValue (qhRemove s.qhUsers id) j = none
      rw [qhValue_qhRemove]
      rcases List.mem_append.mp hj2 with hm | hm
      · have := h2 j hm
        refine ⟨this.1, this.2.1, ?_⟩
        split
        · rfl
        · exact this.2.2
      · rw [List.mem_singleton] at hm
        subst hm
        exact ⟨hbound.1, hbound.2, by simp⟩
    · intro j hj1 hj2
      show j ∈ s.qqIds ++ [id] ∨ ∃ q, qhValue (qhRemove s.qhUsers id) j = some q
      by_cases hji : j = id
      · left
        rw [hji]
        simp
      · rcases h3 j hj1 hj2 with hm | ⟨q, hq⟩
        · left
          exact List.mem_append_left _ hm
        · right
          exact ⟨q, by rw [qhValue_qhRemove, if_neg hji]; exact hq⟩
    · intro j q hjq
      have hjq2 : qhValue (qhRemove s.qhUsers id) j = some q := hjq
      rw [qhValue_qhRemove] at hjq2
      by_cases hji : j = id
      · rw [if_pos hji] at hjq2
        cases hjq2
      · rw [if_neg hji] at hjq2
        exact h4 j q hjq2
    · intro j q hjq
      have hjq2 : qhValue (qhRemove s.qhUsers id) j = some q := hjq
      rw [qhValue_qhRemove] at hjq2
      by_cases hji : j = id
      · rw [if_pos hji] at hjq2
        cases hjq2
      · rw [if_neg hji] at hjq2
        exact h5 j q hjq2
  split
  · exact sessionInv_clearACLCache _ _ hinv
  · exact hinv

theorem sessionInv_of_reachable (channels : List (Nat × Channel)) (bw : Int) (s : Server)
    (h : Reachable channels bw s) : SessionInv s := by
  induction h with
  | init => exact sessionInv_init channels bw
  | client s base adr banned _ ih => exact sessionInv_newClient s base adr banned ih
  | closed s id p _ hlive ih => exact sessionInv_connectionClosed s id p ih hlive

/-- C13. Session-id accounting: in every state reachable from the constructor through
`newClient` and `connectionClosed` (run for a connection that is in `qhUsers`), every
session id of 1..4999 is either a key of `qhUsers` and not in the pool `qqIds`, or in
the pool and not a key of `qhUsers`; and no id occurs more than once in the pool. -/
theorem C13_session_id_accounting (channels : List (Nat × Channel)) (bw : Int) (s : Server)
    (h : Reachable channels bw s) :
    (∀ id, 1 ≤ id → id ≤ 4999 →
      (qhContains s.qhUsers id = true ∧ id ∉ s.qqIds) ∨
        (qhContains s.qhUsers id = false ∧ id ∈ s.qqIds)) ∧
    ∀ id, s.qqIds.count id ≤ 1 := by
  obtain ⟨h1, h2, h3, _, _⟩ := sessionInv_of_reachable channels bw s h
  constructor
  · intro id hid1 hid2
    rcases h3 id hid1 (by omega) with hm | ⟨p, hp⟩
    · right
      refine ⟨?_, hm⟩
      unfold qhContains
      rw [(h2 id hm).2.2]
      rfl
    · left
      refine ⟨?_, ?_⟩
      · unfold qhContains
        rw [hp]
        rfl
      · intro hm
        have := (h2 id hm).2.2
        rw [hp] at this
        cases this
  · intro id
    exact List.nodup_iff_count_le_one.mp h1 id

/-- C13 at a reachable state: two clients connect from host 10 and get the session ids
1 and 2, then the first closes its connection. -/
theorem C13_session_id_accounting_witness :
    (∀ id, 1 ≤ id → id ≤ 4999 →
      (qhContains exClosedServer.qhUsers id = true ∧ id ∉ exClosedServer.qqIds) ∨
        (qhContains exClosedServer.qhUsers id = false ∧ id ∈ exClosedServer.qqIds)) ∧
    ∀ id, exClosedServer.qqIds.count id ≤ 1 :=
  C13_session_id_accounting [] 100000 exClosedServer
    (Reachable.closed _ 1 0
      (Reachable.client _ exX 10 false (Reachable.client _ exX 10 false Reachable.init)) rfl)

/-! ## C14, C15: the bandwidth meter; the positional trailer -/

set_option maxRecDepth 100000 in
/-- C14, the code at the failing input: one frame for a plaintext of 300 bytes, of
on-the-wire size 332, recorded in a fresh meter. The slot receives
`static_cast<unsigned char>(332)` = 76 and the running sum is 76, not 332; so it is
after `processMsg` has recorded a packet of 300 bytes for A. -/
theorem C14_running_sum_evaluation :
    20 + 8 + 4 + 300 = 332 ∧
      ((BandwidthRecord.new 0).addFrame 1000000 332).iSum = 76 ∧
      ((BandwidthRecord.new 0).addFrame 1000000 332).a_iBW.getD 0 0 = 76 ∧
      (32 :: List.replicate 299 1).length = 300 ∧
      ((processMsg exDeps 1000000 exServer 0 (32 :: List.replicate 299 1)).1.user 0).map
        (fun u => u.bwr.iSum) = some 76 ∧
      ¬ ((BandwidthRecord.new 0).addFrame 1000000 332).iSum = 332 :=
  ⟨by decide, by decide, by decide, by simp, rfl, by decide⟩

/-- C15, the code at the failing input. The payload is the sequence number 5, one frame
of two bytes and twelve positional bytes 1..12. As the loop of lines 513-517 does not
count the frames down, it goes on reading lengths in the positional bytes until a skip
runs past the end: `poslen` is 5, not 12. B, in A's context, is sent the full packet of
19 bytes; D, in another context, is sent the packet without its last 5 bytes, so with
seven of the positional bytes. -/
theorem C15_positional_trailer_evaluation :
    exPayload = [5, 1, 2, 170, 187] ++ [1, 2, 3, 4, 5, 6, 7, 8, 9, 10, 11, 12] ∧
      framePosLen exPds (exPayload.length + 1) exPayload = some 5 ∧
      exPosDeps.posLen exPayload = 5 ∧
      (processMsg exPosDeps 1000000 exCtxServer 0 (32 :: exPayload)).2 =
        [Event.tcpTransmit 2 3 [0, 1, 5, 1, 2, 170, 187, 1, 2, 3, 4, 5, 6, 7],
          Event.tcpTransmit 1 2
            [0, 1, 5, 1, 2, 170, 187, 1, 2, 3, 4, 5, 6, 7, 8, 9, 10, 11, 12]] ∧
      ¬ Event.tcpTransmit 2 3 [0, 1, 5, 1, 2, 170, 187] ∈
        (processMsg exPosDeps 1000000 exCtxServer 0 (32 :: exPayload)).2 := by
  decide

theorem skipFrames_invalid (ops : PdsOps) (counter : Nat) (hc : counter ≠ 0) (fuel : Nat)
    (p q : Pds) (h : skipFrames ops counter fuel p = some q) : ops.isValid q = false := by
  have hcb : (counter != 0) = true := by simpa using hc
  induction fuel generalizing p with
  | zero =>
    simp only [skipFrames, hcb, Bool.true_and] at h
    split at h
    · cases h
    · rename_i hv
      cases h
      simpa using hv
  | succ n ih =>
    simp only [skipFrames, hcb, Bool.true_and] at h
    split at h
    · exact ih _ h
    · rename_i hv
      cases h
      simpa using hv

theorem window_length (fs : List (Nat × Nat)) : (window fs).length = 128 := by
  rw [window, List.length_drop, List.length_append, List.length_replicate, List.length_map]
  omega

theorem window_snoc (fs : List (Nat × Nat)) (f : Nat × Nat) :
    window (fs ++ [f]) = (window fs).drop 1 ++ [f.2 % 256] := by
  unfold window
  rw [List.map_append, ← List.append_assoc, List.length_append, List.length_singleton,
    List.drop_append_eq_append_drop, List.drop_drop]
  have hlen : (List.replicate 128 0 ++ List.map (fun f : Nat × Nat => f.2 % 256) fs).length =
      128 + fs.length := by
    rw [List.length_append, List.length_replicate, List.length_map]
  rw [hlen]
  have : fs.length + 1 - (128 + fs.length) = 0 := by omega
  rw [this]
  rfl

theorem ring_set_rotate (w : List Nat) (hw : w.length = 128) (r v : Nat) (hr : r < 128) :
    (w.rotate (128 - r)).set r v =
      (w.drop 1 ++ [v]).rotate (128 - (if r + 1 = 128 then 0 else r + 1)) := by
  have hd : (w.drop 1).length = 127 := by
    rw [List.length_drop, hw]
  have hw2 : (w.drop 1 ++ [v]).length = 128 := by
    rw [List.length_append, hd, List.length_singleton]
  apply List.ext_getElem?
  intro i
  rcases Nat.lt_or_ge i 128 with hi | hi
  · have hR : ((w.drop 1 ++ [v]).rotate (128 - (if r + 1 = 128 then 0 else r + 1)))[i]? =
        (w.drop 1 ++ [v])[(i + (128 - (if r + 1 = 128 then 0 else r + 1))) % 128]? := by
      rw [List.getElem?_rotate (by rw [hw2]; exact hi), hw2]
    have hL : (w.rotate (128 - r))[i]? = w[(i + (128 - r)) % 128]? := by
      rw [List.getElem?_rotate (by rw [hw]; exact hi), hw]
    rw [hR, List.getElem?_set]
    by_cases hri : r = i
    · subst hri
      rw [if_pos rfl, if_pos (by rw [List.length_rotate, hw]; exact hr)]
      have hidx : (r + (128 - if r + 1 = 128 then 0 else r + 1)) % 128 = 127 := by
        split <;> omega
      rw [hidx, List.getElem?_append_right (by rw [hd]), hd]
      rfl
    · rw [if_neg hri, hL]
      have hj : (i + (128 - if r + 1 = 128 then 0 else r + 1)) % 128 < 127 := by
        split <;> omega
      rw [List.getElem?_append_left (by rw [hd]; exact hj), List.getElem?_drop]
      congr 1
      split <;> omega
  · rw [List.getElem?_eq_none (by rw [List.length_set, List.length_rotate, hw]; exact hi),
      List.getElem?_eq_none (by rw [List.length_rotate, hw2]; exact hi)]

theorem ringInv_new (t0 : Nat) : RingInv (BandwidthRecord.new t0) [] := by
  refine ⟨show (0 : Nat) < 128 by omega, rfl, ?_, ?_⟩
  · show List.replicate N_BANDWIDTH_SLOTS 0 = (window []).rotate (128 - 0)
    have h : window [] = List.replicate 128 0 := rfl
    rw [h]
    have := List.rotate_length (List.replicate 128 0)
    rw [List.length_replicate] at this
    rw [this]
    rfl
  · show (0 : Int) = (((window []).sum : Nat) : Int)
    have h : window [] = List.replicate 128 0 := rfl
    rw [h, List.sum_replicate]
    simp

theorem ringInv_addFrame (b : BandwidthRecord) (fs : List (Nat × Nat)) (t x : Nat)
    (h : RingInv b fs) : RingInv (b.addFrame t x) (fs ++ [(t, x)]) := by
  obtain ⟨h1, h2, h3, h4⟩ := h
  have hw := window_length fs
  obtain ⟨w0, wt, hwe⟩ : ∃ w0 wt, window fs = w0 :: wt := by
    cases hq : window fs with
    | nil => rw [hq] at hw; cases hw
    | cons a l => exact ⟨a, l, rfl⟩
  have hold : b.a_iBW.getD b.iRecNum 0 = w0 := by
    rw [h3, List.getD_eq_getElem?_getD, List.getElem?_rotate (by rw [hw]; exact h1), hw]
    have : (b.iRecNum + (128 - b.iRecNum)) % 128 = 0 := by
      have : b.iRecNum + (128 - b.iRecNum) = 128 := by omega
      rw [this]
    rw [this, hwe]
    simp
  have hrec : (b.addFrame t x).iRecNum = if b.iRecNum + 1 = 128 then 0 else b.iRecNum + 1 := rfl
  refine ⟨?_, ?_, ?_, ?_⟩
  · rw [hrec]; split <;> omega
  · rw [hrec, List.length_append, List.length_singleton]
    split <;> omega
  · rw [hrec, window_snoc]
    show b.a_iBW.set b.iRecNum (x % 256) = _
    rw [h3]
    exact ring_set_rotate (window fs) hw b.iRecNum (x % 256) h1
  · rw [window_snoc]
    show b.iSum - ((b.a_iBW.getD b.iRecNum 0 : Nat) : Int) + ((x % 256 : Nat) : Int) = _
    rw [hold, h4, hwe]
    simp only [List.drop_succ_cons, List.drop_zero, List.sum_cons, List.sum_append,
      List.sum_nil, add_zero]
    push_cast
    ring

theorem ringInv_recordFrames (t0 : Nat) (fs : List (Nat × Nat)) :
    RingInv (recordFrames (BandwidthRecord.new t0) fs) fs := by
  induction fs using List.reverseRecOn with
  | nil => exact ringInv_new t0
  | append_singleton l f ih =>
    unfold recordFrames at ih ⊢
    rw [List.foldl_append]
    exact ringInv_addFrame _ l f.1 f.2 ih

theorem window_sum (fs : List (Nat × Nat)) :
    (window fs).sum = (((fs.map (fun f : Nat × Nat => f.2 % 256)).reverse).take 128).sum := by
  unfold window
  rw [List.take_reverse, List.sum_reverse, List.drop_append_eq_append_drop, List.sum_append]
  have hz : (List.drop fs.length (List.replicate 128 0)).sum = 0 := by
    rw [List.drop_replicate]
    simp
  rw [hz, zero_add, List.length_replicate, List.length_map]

/-- What the meter does hold: after the frames `fs` have been recorded in a new meter,
`iSum` is the sum of the sizes modulo 256 of the most recent min(k, 128) frames. -/
theorem recordFrames_iSum (t0 : Nat) (fs : List (Nat × Nat)) :
    (recordFrames (BandwidthRecord.new t0) fs).iSum =
      (((((fs.map (fun f : Nat × Nat => f.2 % 256)).reverse).take 128).sum : Nat) : Int) := by
  rw [(ringInv_recordFrames t0 fs).2.2.2, window_sum]

end Murmur
